import Mathlib

/-!
Verification development for the operator repository: a shallow embedding of
the control-plane reconciler (finalizer state machine), the manifest object
model (parsing, sorting, serialization caches), the diff engine
(rename/select/ignore filtering) and the apply-result aggregation, together
with theorems settling the specification claims about them.

Go strings are embedded as `List Char`; Go byte slices likewise.  External
collaborators (the Kubernetes client, the YAML decoder, the regexp engine,
JSON marshalling) are modelled as explicit oracle parameters: the embedded
functions are translated from the repository source, while the oracles stand
for the library calls the source makes.
-/

namespace Operator

/-- Embedding of a Go string as a list of characters. -/
abbrev GoStr := List Char

/-- Unicode white space as recognized by Go `unicode.IsSpace` for the
Latin-1 range (space, tab, newline, vertical tab, form feed, carriage
return, NEL, NBSP). -/
def goIsSpace (c : Char) : Bool :=
  c = ' ' || c = '\t' || c = '\n' || c = '\x0b' || c = '\x0c' || c = '\r' ||
  c = '\x85' || c = '\xa0'

/-- Embedding of Go `strings.TrimSpace`. -/
def goTrimSpace (s : GoStr) : GoStr :=
  ((s.dropWhile goIsSpace).reverse.dropWhile goIsSpace).reverse

/-- Embedding of Go `strings.Split` with a one-character separator. -/
def splitChar (sep : Char) : GoStr → List GoStr
  | [] => [[]]
  | c :: rest =>
    let r := splitChar sep rest
    if c = sep then [] :: r
    else (c :: r.headD []) :: r.tail

/-- Embedding of Go `strings.Join` with a one-character separator. -/
def joinChar (sep : Char) : List GoStr → GoStr
  | [] => []
  | [x] => x
  | x :: y :: xs => x ++ sep :: joinChar sep (y :: xs)

/-- Position of the first occurrence of `sub` in a string, if any
(Go `strings.Index`). -/
def findSub (sub : GoStr) : GoStr → Option Nat
  | [] => if sub = [] then some 0 else none
  | c :: rest =>
    if sub.isPrefixOf (c :: rest) then some 0
    else (findSub sub rest).map (· + 1)

/-- Fuel-driven worker for the multi-character split; the fuel exceeds the
string length on every call from `splitOnSub`, so the zero-fuel base case
is never reached. -/
def splitOnSubFuel (sub : GoStr) : Nat → GoStr → List GoStr
  | 0, s => [s]
  | _ + 1, [] => [[]]
  | fuel + 1, c :: rest =>
    if sub ≠ [] ∧ sub.isPrefixOf (c :: rest) then
      [] :: splitOnSubFuel sub fuel (List.drop (sub.length - 1) rest)
    else
      let r := splitOnSubFuel sub fuel rest
      (c :: r.headD []) :: r.tail

/-- Embedding of Go `strings.Split` with a multi-character separator. -/
def splitOnSub (sub : GoStr) (s : GoStr) : List GoStr :=
  splitOnSubFuel sub (s.length + 1) s

/-- Strict byte-wise (character-wise) comparison of two strings, the order
used by Go `<` on strings and by `sort.Strings`. -/
def chListLt : List Char → List Char → Bool
  | [], [] => false
  | [], _ :: _ => true
  | _ :: _, [] => false
  | a :: as, b :: bs => if a = b then chListLt as bs else decide (a < b)

/-- Non-strict string order as a proposition, for sorting. -/
def strLe (a b : String) : Prop := chListLt b.data a.data = false

instance : DecidableRel strLe := fun a b => by unfold strLe; infer_instance

/-- Errors returned by the Kubernetes client, abstracted to the three
classes the reconciler distinguishes (`errors.IsNotFound`,
`errors.IsConflict`, anything else). -/
inductive KErr where
  | notFound : KErr
  | conflict : KErr
  | other : Nat → KErr
deriving DecidableEq, Repr

/-- Embedding of `errors.IsNotFound`. -/
def KErr.isNotFound : KErr → Bool
  | .notFound => true
  | _ => false

/-- Embedding of `errors.IsConflict` applied to a possibly-nil error. -/
def isConflictOpt : Option KErr → Bool
  | some .conflict => true
  | _ => false

/-- The finalizer token owned by the controller. -/
def finalizer : String := "istio-finalizer.install.istio.io"

/-- Maximum number of conflict retries when removing the finalizer. -/
def finalizerMaxRetries : Nat := 10

/-- Embedding of `sets.NewString`: membership list of the set built from a
Go string slice (duplicates collapse). -/
def setsNewString (l : List String) : List String := l.dedup

/-- Embedding of `sets.String.Has`. -/
def setsHas (s : List String) (x : String) : Bool := s.contains x

/-- Embedding of `sets.String.Delete`. -/
def setsDelete (s : List String) (x : String) : List String := s.erase x

/-- Embedding of `sets.String.Insert`. -/
def setsInsert (s : List String) (x : String) : List String :=
  if s.contains x then s else s ++ [x]

/-- Embedding of `sets.String.List`: the sorted element list. -/
def setsList (s : List String) : List String := s.insertionSort strLe

/-- The control-plane resource as the reconciler observes it: the deletion
marker and the finalizer list (the spec document is opaque here). -/
structure ICP where
  deletionTimestampSet : Bool
  finalizers : List String
deriving DecidableEq, Repr

/-- Outcome of one `Reconcile` invocation: the returned error, the finalizer
lists passed to each `client.Update` call in order, and whether the
per-resource reconciler's delete / update operations were invoked. -/
structure Outcome where
  err : Option KErr
  updates : List (List String)
  deleteOpInvoked : Bool
  updateOpInvoked : Bool
deriving DecidableEq, Repr

namespace SetsCtrl

/-- Oracles for one `Reconcile` invocation of the set-based controller:
the initial fetch result, the factory / delete / reconcile collaborator
errors, the finalizer list observed at the k-th re-fetch inside the
conflict-retry loop, and the result of the k-th `client.Update` call. -/
structure Env where
  getResult : Except KErr ICP
  factoryErr : Option KErr
  deleteErr : Option KErr
  reconcileErr : Option KErr
  refetchFinalizers : Nat → List String
  updateErr : Nat → Option KErr

/-- Embedding of the conflict-retry loop of the deletion path: while the
previous update failed with a conflict and retries remain, re-fetch,
recompute the finalizer removal, and update again.  Returns the final
persistence error together with the finalizer lists persisted by the loop;
`k` numbers the update calls, `n` is the remaining retry budget. -/
def removalRetryLoop (env : Env) (finalizerError : Option KErr) (k : Nat) :
    Nat → Option KErr × List (List String)
  | 0 => (finalizerError, [])
  | n + 1 =>
    if isConflictOpt finalizerError then
      let fins := setsDelete (setsNewString (env.refetchFinalizers k)) finalizer
      let payload := setsList fins
      let rest := removalRetryLoop env (env.updateErr k) (k + 1) n
      (rest.1, payload :: rest.2)
    else (finalizerError, [])

/-- Tail of the non-deleting path: create the per-resource reconciler and
invoke its update operation, returning its error. -/
def updateTail (env : Env) (ups : List (List String)) : Outcome :=
  match env.factoryErr with
  | some e => ⟨some e, ups, false, false⟩
  | none => ⟨env.reconcileErr, ups, false, true⟩

/-- Embedding of `ReconcileIstioControlPlane.Reconcile` (the set-based
variant): fetch, not-found is success, deletion path removes the finalizer
with bounded conflict retries, otherwise the finalizer is added with a
single update attempt and the per-resource reconciler is invoked. -/
def Reconcile (env : Env) : Outcome :=
  match env.getResult with
  | .error e =>
    if e.isNotFound then ⟨none, [], false, false⟩ else ⟨some e, [], false, false⟩
  | .ok icp =>
    let fins := setsNewString icp.finalizers
    if icp.deletionTimestampSet then
      if ! setsHas fins finalizer then ⟨none, [], false, false⟩
      else
        let err := match env.factoryErr with
          | none => env.deleteErr
          | some e => some e
        let payload := setsList (setsDelete fins finalizer)
        let res := removalRetryLoop env (env.updateErr 0) 1 finalizerMaxRetries
        match res.1 with
        | some fe => ⟨some fe, payload :: res.2, env.factoryErr.isNone, false⟩
        | none => ⟨err, payload :: res.2, env.factoryErr.isNone, false⟩
    else
      if ! setsHas fins finalizer then
        let payload := setsList (setsInsert fins finalizer)
        match env.updateErr 0 with
        | some e => ⟨some e, [payload], false, false⟩
        | none => updateTail env [payload]
      else updateTail env []

end SetsCtrl

/-- Embedding of `indexOf`: the position of the first occurrence of `s` in
the slice `l`, or `-1` when absent. -/
def indexOf (l : List String) (s : String) : Int :=
  match l with
  | [] => -1
  | x :: xs =>
    if x = s then 0
    else
      let r := indexOf xs s
      if r < 0 then -1 else r + 1

/-- Embedding of the Go slice expression
`append(l[:i], l[i+1:]...)`: defined only when both slice bounds are in
range (`0 ≤ i` and `i+1 ≤ len(l)`); out-of-range slicing is a runtime
panic, modelled as `none`. -/
def removeAtGo (l : List String) (i : Int) : Option (List String) :=
  if 0 ≤ i ∧ i + 1 ≤ (l.length : Int) then
    some (l.take i.toNat ++ l.drop (i.toNat + 1))
  else none

namespace SliceCtrl

/-- Oracles for one `Reconcile` invocation of the slice-based controller.
In addition to the set-based controller's oracles, the marshalling of the
fetched spec and its decoding into the typed object can each fail. -/
structure Env where
  getResult : Except KErr ICP
  marshalErr : Option KErr
  unmarshalErr : Option KErr
  factoryErr : Option KErr
  deleteErr : Option KErr
  reconcileErr : Option KErr
  refetchFinalizers : Nat → List String
  updateErr : Nat → Option KErr

/-- Embedding of the conflict-retry loop of the slice-based deletion path:
on each retry the resource is re-fetched and the finalizer's index is
recomputed, but the index is not checked for absence before slicing, so an
iteration whose re-fetched list lacks the token panics (`none`). -/
def removalRetryLoop (env : Env) (finalizerError : Option KErr) (k : Nat) :
    Nat → Option (Option KErr × List (List String))
  | 0 => some (finalizerError, [])
  | n + 1 =>
    if isConflictOpt finalizerError then
      let fins := env.refetchFinalizers k
      let i := indexOf fins finalizer
      match removeAtGo fins i with
      | none => none
      | some fins2 =>
        match removalRetryLoop env (env.updateErr k) (k + 1) n with
        | none => none
        | some rest => some (rest.1, fins2 :: rest.2)
    else some (finalizerError, [])

/-- Tail of the non-deleting path of the slice-based controller. -/
def updateTail (env : Env) (ups : List (List String)) : Outcome :=
  match env.factoryErr with
  | some e => ⟨some e, ups, false, false⟩
  | none => ⟨env.reconcileErr, ups, false, true⟩

/-- Embedding of the slice-based `Reconcile` variant, which keeps the
finalizers as a plain string slice and removes the token by position.
`none` models a runtime panic from out-of-range slicing. -/
def Reconcile (env : Env) : Option Outcome :=
  match env.getResult with
  | .error e =>
    if e.isNotFound then some ⟨none, [], false, false⟩
    else some ⟨some e, [], false, false⟩
  | .ok u =>
    let fins := u.finalizers
    let finalizerIndex := indexOf fins finalizer
    match env.marshalErr with
    | some e => some ⟨some e, [], false, false⟩
    | none =>
    match env.unmarshalErr with
    | some e => some ⟨some e, [], false, false⟩
    | none =>
    if u.deletionTimestampSet then
      if finalizerIndex < 0 then some ⟨none, [], false, false⟩
      else
        let err := match env.factoryErr with
          | none => env.deleteErr
          | some e => some e
        match removeAtGo fins finalizerIndex with
        | none => none
        | some fins1 =>
          match removalRetryLoop env (env.updateErr 0) 1 finalizerMaxRetries with
          | none => none
          | some res =>
            match res.1 with
            | some fe => some ⟨some fe, fins1 :: res.2, env.factoryErr.isNone, false⟩
            | none => some ⟨err, fins1 :: res.2, env.factoryErr.isNone, false⟩
    else
      if finalizerIndex < 0 then
        let payload := fins ++ [finalizer]
        match env.updateErr 0 with
        | some e => some ⟨some e, [payload], false, false⟩
        | none => some (updateTail env [payload])
      else some (updateTail env [])

end SliceCtrl

/-- Allow-list of benign standard-error prefixes ignored by the apply
result aggregation (`ignoreStdErrList`). -/
def ignoreStdErrList : List GoStr :=
  [("Warning: kubectl apply should be used on resource created by either kubectl create --save-config or kubectl apply").data]

/-- Embedding of `ignoreError`: standard error text is ignorable when its
trimmed form starts with an allow-listed prefix, or is empty. -/
def ignoreError (stderr : GoStr) : Bool :=
  let trimmedStdErr := goTrimSpace stderr
  if ignoreStdErrList.any (fun ignore => ignore.isPrefixOf trimmedStdErr) then true
  else trimmedStdErr.isEmpty

/-- Per-component apply outcome (`manifest.ComponentApplyOutput`): captured
standard output, standard error, and error value. -/
structure ComponentApplyOutput where
  Stdout : GoStr
  Stderr : GoStr
  Err : Option KErr

/-- Embedding of the error-aggregation loop of `genApplyManifests`: fold
over the components, marking the run as failed when a component's outcome
carries a non-nil error or non-ignorable standard error. -/
def applyRunHasErrors (components : List GoStr) (out : GoStr → ComponentApplyOutput) : Bool :=
  components.foldl
    (fun gotError cn =>
      let g1 := if (out cn).Err.isSome then true else gotError
      if ! ignoreError (out cn).Stderr then true else g1)
    false

/-- Result surface of `genApplyManifests`: the aggregate failure boolean
together with the full per-component detail. -/
def genApplyManifestsResult (components : List GoStr) (out : GoStr → ComponentApplyOutput) :
    Bool × List (GoStr × ComponentApplyOutput) :=
  (applyRunHasErrors components out, components.map (fun cn => (cn, out cn)))

/-- Embedding of Go `strings.LastIndex` for a one-character needle. -/
def goLastIndexChar (s : GoStr) (c : Char) : Int :=
  match s with
  | [] => -1
  | x :: xs =>
    let r := goLastIndexChar xs c
    if 0 ≤ r then r + 1 else if x = c then 0 else -1

/-- Embedding of Go `path.Base`: the last element of the path after
stripping trailing slashes, `"."` for the empty path, `"/"` for a path of
only slashes. -/
def goPathBase (p : GoStr) : GoStr :=
  if p = [] then ['.']
  else
    let p1 := (p.reverse.dropWhile (fun c => c = '/')).reverse
    let p2 := (p1.reverse.takeWhile (fun c => c ≠ '/')).reverse
    if p2 = [] then ['/'] else p2

/-- The specification fields `fetchInstallPackageFromURL` reads and writes:
only the install-package path matters here. -/
structure ICPS where
  installPackagePath : GoStr
deriving DecidableEq, Repr

/-- Oracles for `fetchInstallPackageFromURL`: the external HTTP-URL
predicate, the URL-fetcher construction and fetch errors, the fetcher's
destination directory, the external path join (`filepath.Join`) and the
charts-file constant. -/
structure FetchEnv where
  isHTTPURL : GoStr → Bool
  newURLFetcherErr : Option KErr
  fetchBundlesErr : Option KErr
  destDir : GoStr
  joinPath : GoStr → GoStr → GoStr → GoStr
  chartsFilePath : GoStr

/-- Embedding of `fetchInstallPackageFromURL`: a non-URL path is left
unchanged; a URL path is fetched and the path field rewritten to the local
extraction directory, truncating the base name at its last `-`.  The result
pairs the returned error with the (possibly updated) specification; `none`
models the out-of-range panic of `isp[:idx]` when the base name has no
`-`. -/
def fetchInstallPackageFromURL (env : FetchEnv) (mergedICPS : ICPS) :
    Option (Option KErr × ICPS) :=
  if env.isHTTPURL mergedICPS.installPackagePath then
    match env.newURLFetcherErr with
    | some e => some (some e, mergedICPS)
    | none =>
      match env.fetchBundlesErr with
      | some e => some (some e, mergedICPS)
      | none =>
        let isp := goPathBase mergedICPS.installPackagePath
        let idx := goLastIndexChar isp '-'
        if 0 ≤ idx ∧ idx ≤ (isp.length : Int) then
          some (none,
            ⟨env.joinPath env.destDir (isp.take idx.toNat) env.chartsFilePath⟩)
        else none
  else some (none, mergedICPS)

/-- Association-list embedding of a Go map with string keys: lookup, write
(overwrite on collision) and delete. -/
abbrev GoMap (β : Type) := List (GoStr × β)

/-- Lookup in a Go map. -/
def mapLookup {β : Type} : GoMap β → GoStr → Option β
  | [], _ => none
  | (k0, v0) :: rest, k => if k0 = k then some v0 else mapLookup rest k

/-- Write to a Go map, overwriting an existing binding of the key. -/
def mapSet {β : Type} : GoMap β → GoStr → β → GoMap β
  | [], k, v => [(k, v)]
  | (k0, v0) :: rest, k, v =>
    if k0 = k then (k, v) :: rest else (k0, v0) :: mapSet rest k v

/-- Embedding of Go `delete(m, k)`: remove the binding of `k`. -/
def mapDelete {β : Type} : GoMap β → GoStr → GoMap β
  | [], _ => []
  | kv :: rest, k => if kv.1 = k then mapDelete rest k else kv :: mapDelete rest k

/-- Key list of a Go map. -/
def mapKeys {β : Type} (m : GoMap β) : List GoStr := m.map Prod.fst

/-- The part of an `unstructured.Unstructured` value the object model
reads: the group/version/kind, name, namespace, labels, and an opaque
payload standing for the rest of the document. -/
structure UnstructuredObj where
  gvkGroup : GoStr
  gvkKind : GoStr
  uName : GoStr
  uNamespace : GoStr
  labels : GoMap GoStr
  payload : Nat
deriving DecidableEq, Repr

/-- Embedding of `K8sObject`: the underlying structured value, the derived
identity attributes, and the two cached serialized forms. -/
structure K8sObject where
  object : UnstructuredObj
  Group : GoStr
  Kind : GoStr
  Name : GoStr
  Namespace : GoStr
  json : Option GoStr
  yaml : Option GoStr
deriving DecidableEq, Repr

/-- Embedding of `NewK8sObject`: derive the identity attributes from the
unstructured value and install the given caches. -/
def NewK8sObject (u : UnstructuredObj) (json yaml : Option GoStr) : K8sObject :=
  { object := u, Group := u.gvkGroup, Kind := u.gvkKind, Name := u.uName,
    Namespace := u.uNamespace, json := json, yaml := yaml }

/-- Embedding of the free function `Hash`: `kind:namespace:name`, with the
namespace forced to empty for the cluster-scoped kinds. -/
def Hash (kind nspace name : GoStr) : GoStr :=
  let nspace2 :=
    if kind = ("ClusterRole").data ∨ kind = ("ClusterRoleBinding").data then []
    else nspace
  joinChar ':' [kind, nspace2, name]

/-- Embedding of `HashNameKind`: `kind:name`. -/
def HashNameKind (kind name : GoStr) : GoStr := joinChar ':' [kind, name]

/-- Embedding of the method `K8sObject.Hash`. -/
def K8sObject.Hash (o : K8sObject) : GoStr := Operator.Hash o.Kind o.Namespace o.Name

/-- Embedding of the method `K8sObject.HashNameKind`. -/
def K8sObject.HashNameKind (o : K8sObject) : GoStr := Operator.HashNameKind o.Kind o.Name

/-- Embedding of `K8sObject.Valid`: kind and name are both non-empty. -/
def K8sObject.Valid (o : K8sObject) : Bool :=
  if o.Kind = [] ∨ o.Name = [] then false else true

/-- Embedding of `AddLabels`: merge the given labels over the object's
labels (new values win) and invalidate both serialization caches. -/
def AddLabels (o : K8sObject) (labels : GoMap GoStr) : K8sObject :=
  let merged := labels.foldl (fun m kv => mapSet m kv.1 kv.2)
    (o.object.labels.foldl (fun m kv => mapSet m kv.1 kv.2) [])
  { o with object := { o.object with labels := merged }, json := none, yaml := none }

/-- Embedding of `K8sObject.JSON` with the external JSON marshaller as an
oracle: return the cached canonical form when present, else marshal the
underlying object (the source does not fill the cache here). -/
def K8sObject.JSON (marshal : UnstructuredObj → Except GoStr GoStr) (o : K8sObject) :
    Except GoStr GoStr :=
  match o.json with
  | some j => .ok j
  | none => marshal o.object

/-- Embedding of `K8sObject.YAML` with the external JSON marshaller and the
JSON-to-YAML converter as oracles: return the cached textual form when
present, else render JSON (filling the JSON cache), convert it, fill the
YAML cache.  The pair returns the result together with the updated
object. -/
def K8sObject.YAML (marshal : UnstructuredObj → Except GoStr GoStr)
    (jsonToYAML : GoStr → Except GoStr GoStr) (o : K8sObject) :
    Except GoStr GoStr × K8sObject :=
  match o.yaml with
  | some y => (.ok y, o)
  | none =>
    match o.JSON marshal with
    | .error e => (.error e, o)
    | .ok oj =>
      let o1 := { o with json := some oj }
      match jsonToYAML oj with
      | .error e => (.error e, o1)
      | .ok y => (.ok y, { o1 with yaml := some y })

/-- Embedding of the comparison closure of `K8sObjects.Sort`: strictly less
by score, then group, then kind, then name. -/
def sortLt (score : K8sObject → Int) (a b : K8sObject) : Bool :=
  let iScore := score a
  let jScore := score b
  decide (iScore < jScore) ||
  (decide (iScore = jScore) && chListLt a.Group b.Group) ||
  (decide (iScore = jScore) && decide (a.Group = b.Group) && chListLt a.Kind b.Kind) ||
  (decide (iScore = jScore) && decide (a.Group = b.Group) && decide (a.Kind = b.Kind) &&
    chListLt a.Name b.Name)

/-- Non-strict ordering induced by the sort comparator, the order in which
`sort.Slice` leaves the sequence. -/
def sortLe (score : K8sObject → Int) (a b : K8sObject) : Prop := sortLt score b a = false

instance (score : K8sObject → Int) : DecidableRel (sortLe score) := fun a b => by
  unfold sortLe; infer_instance

/-- Embedding of `K8sObjects.Sort`: order the objects by score, group,
kind, name (a deterministic sort satisfying the `sort.Slice` contract for
the comparator). -/
def sortObjects (score : K8sObject → Int) (os : List K8sObject) : List K8sObject :=
  os.insertionSort (sortLe score)

/-- Embedding of the line scan of `bufio.Scanner` with `ScanLines`: split
at newlines, drop a final empty token, strip one trailing carriage return
per line. -/
def goScanLines (s : GoStr) : List GoStr :=
  let ls := splitChar '\n' s
  let ls2 := if ls.getLast? = some [] then ls.dropLast else ls
  ls2.map (fun l => if l.getLast? = some '\r' then l.dropLast else l)

/-- Embedding of the chunking loop of `ParseK8sObjectsFromYAMLManifest`:
accumulate lines (each with a newline re-appended) into a buffer, flushing
the buffer at each line equal to `---`, with a final flush. -/
def splitYamls : List GoStr → GoStr → List GoStr
  | [], b => [b]
  | line :: rest, b =>
    if line = ("---").data then b :: splitYamls rest []
    else splitYamls rest (b ++ line ++ ['\n'])

/-- Embedding of `removeNonYAMLLines`: drop `#`-prefixed lines, rejoin with
newlines, and trim surrounding white space. -/
def removeNonYAMLLines (yms : GoStr) : GoStr :=
  goTrimSpace ((splitChar '\n' yms).foldl
    (fun out s => if ("#").data.isPrefixOf s then out else out ++ s ++ ['\n']) [])

/-- Embedding of `ParseYAMLToK8sObject` with the external YAML decoder as
an oracle: a successful decode yields a new object carrying the source text
as its cached textual form. -/
def ParseYAMLToK8sObject (decode : GoStr → Except GoStr UnstructuredObj) (yaml : GoStr) :
    Except GoStr K8sObject :=
  match decode yaml with
  | .error e => .error e
  | .ok u => .ok (NewK8sObject u none (some yaml))

/-- Embedding of `ParseK8sObjectsFromYAMLManifest`: split the manifest text
into chunks at `---` lines, strip comment lines from each chunk, silently
drop chunks that are blank after stripping, skip chunks that fail to decode
while recording one report per failure, and collect the parsed objects.
The Go function returns a nil error on this path, so the embedding returns
the object list together with the failure reports. -/
def ParseK8sObjectsFromYAMLManifest (decode : GoStr → Except GoStr UnstructuredObj)
    (manifest : GoStr) : List K8sObject × List GoStr :=
  let yamls := splitYamls (goScanLines manifest) []
  yamls.foldl
    (fun acc y =>
      let y2 := removeNonYAMLLines y
      if y2 = [] then acc
      else
        match ParseYAMLToK8sObject decode y2 with
        | .error msg => (acc.1, acc.2 ++ [msg])
        | .ok o => (acc.1 ++ [o], acc.2))
    ([], [])

/-- Wildcard translation step of `buildResourceRegexp`: split the indicator
at colons, replace empty or `*` components by `.*`, and rejoin. -/
def wildcardToRe (s : GoStr) : GoStr :=
  joinChar ':' ((splitChar ':' s).map
    (fun v => if v = [] ∨ v = ['*'] then (".*").data else v))

/-- Embedding of `buildResourceRegexp` with the external regexp engine as
an oracle: compile the wildcard-translated indicator; `none` models a
compile error. -/
def buildResourceRegexp (compile : GoStr → Option (GoStr → Bool)) (s : GoStr) :
    Option (GoStr → Bool) :=
  compile (wildcardToRe s)

/-- Embedding of the inner rule loop of `renameResource` for one index key:
every rule whose compiled from-pattern matches the key writes the rewritten
key (to-components inherit the original wherever empty or `*`) into the
output map and marks the key renamed; the loop does not stop at the first
match. -/
def renameLoop (compile : GoStr → Option (GoStr → Bool)) (name : GoStr) (obj : K8sObject) :
    List (GoStr × GoStr) → GoMap K8sObject → Bool → Except GoStr (GoMap K8sObject × Bool)
  | [], oom, isRenamed => .ok (oom, isRenamed)
  | (fromPat, toPat) :: rules, oom, isRenamed =>
    match buildResourceRegexp compile (goTrimSpace fromPat) with
    | none => .error ("error building the regexp from rename-from string").data
    | some re =>
      if re name then
        let fromList := splitChar ':' name
        if fromList.length ≠ 3 then .error ("failed to split the old name").data
        else
          let toList := splitChar ':' toPat
          if toList.length ≠ 3 then .error ("failed to split the rename-to string").data
          else
            let newList := List.zipWith
              (fun t f => if t = [] ∨ t = ['*'] then f else t) toList fromList
            let tk := joinChar ':' newList
            renameLoop compile name obj rules (mapSet oom tk obj) true
      else renameLoop compile name obj rules oom isRenamed

/-- Outer key loop of `renameResource`: keys never renamed pass through
unchanged. -/
def renameResourceGo (compile : GoStr → Option (GoStr → Bool))
    (rnm : List (GoStr × GoStr)) :
    GoMap K8sObject → GoMap K8sObject → Except GoStr (GoMap K8sObject)
  | [], oom => .ok oom
  | (name, obj) :: rest, oom =>
    match renameLoop compile name obj rnm oom false with
    | .error e => .error e
    | .ok (oom2, isRenamed) =>
      renameResourceGo compile rnm rest (if isRenamed then oom2 else mapSet oom2 name obj)

/-- Embedding of `renameResource`: apply the rename rules to every key of
the identity index. -/
def renameResource (compile : GoStr → Option (GoStr → Bool)) (iom : GoMap K8sObject)
    (rnm : List (GoStr × GoStr)) : Except GoStr (GoMap K8sObject) :=
  renameResourceGo compile rnm iom []

/-- Select loop of `filterResourceWithSelectAndIgnore` for one index key:
any matching select pattern writes the key into the output map. -/
def selectLoop (compile : GoStr → Option (GoStr → Bool)) (ak : GoStr) (av : K8sObject) :
    List GoStr → GoMap K8sObject → Except GoStr (GoMap K8sObject)
  | [], aosm => .ok aosm
  | selected :: rest, aosm =>
    match buildResourceRegexp compile (goTrimSpace selected) with
    | none => .error ("error building the resource regexp").data
    | some re =>
      selectLoop compile ak av rest (if re ak then mapSet aosm ak av else aosm)

/-- Ignore loop of `filterResourceWithSelectAndIgnore` for one index key:
any matching ignore pattern deletes the key from the output map. -/
def ignoreLoop (compile : GoStr → Option (GoStr → Bool)) (ak : GoStr) :
    List GoStr → GoMap K8sObject → Except GoStr (GoMap K8sObject)
  | [], aosm => .ok aosm
  | ignored :: rest, aosm =>
    match buildResourceRegexp compile (goTrimSpace ignored) with
    | none => .error ("error building the resource regexp").data
    | some re =>
      ignoreLoop compile ak rest (if re ak then mapDelete aosm ak else aosm)

/-- Outer key loop of `filterResourceWithSelectAndIgnore`: for each key,
run the select loop and then the ignore loop against the accumulated
output map. -/
def filterResourceGo (compile : GoStr → Option (GoStr → Bool)) (sm im : List GoStr) :
    GoMap K8sObject → GoMap K8sObject → Except GoStr (GoMap K8sObject)
  | [], aosm => .ok aosm
  | (ak, av) :: rest, aosm =>
    match selectLoop compile ak av sm aosm with
    | .error e => .error e
    | .ok a1 =>
      match ignoreLoop compile ak im a1 with
      | .error e => .error e
      | .ok a2 => filterResourceGo compile sm im rest a2

/-- Embedding of `filterResourceWithSelectAndIgnore`: filter the identity
index with the select patterns and then the ignore patterns, starting from
an empty output map. -/
def filterResourceWithSelectAndIgnore (compile : GoStr → Option (GoStr → Bool))
    (aom : GoMap K8sObject) (sm im : List GoStr) : Except GoStr (GoMap K8sObject) :=
  filterResourceGo compile sm im aom []

/-- Matching of a pattern consisting of literal characters and `.*` runs
against a string, unanchored, by greedy earliest-occurrence search of the
literal segments.  This realizes the external regexp oracle on exactly the
patterns the wildcard translation produces. -/
def globSegsMatch : List GoStr → GoStr → Bool
  | [], _ => true
  | seg :: rest, s =>
    match findSub seg s with
    | none => false
    | some i => globSegsMatch rest (s.drop (i + seg.length))

/-- Unanchored match of a literal-and-`.*` pattern. -/
def globMatchString (pat s : GoStr) : Bool :=
  globSegsMatch (splitOnSub ((".*").data) pat) s

/-- Concrete instance of the regexp-compile oracle used by witnesses and
counterexamples: every pattern compiles, and matching is the
literal-and-`.*` semantics of `globMatchString`. -/
def globCompile (pat : GoStr) : Option (GoStr → Bool) :=
  some (fun s => globMatchString pat s)

/-- Objects contributed by each chunk of a split manifest: a non-blank
chunk that decodes contributes its object, all other chunks contribute
nothing. -/
def chunkObjects (decode : GoStr → Except GoStr UnstructuredObj) (ys : List GoStr) :
    List K8sObject :=
  ys.filterMap (fun y =>
    let y2 := removeNonYAMLLines y
    if y2 = [] then none
    else
      match ParseYAMLToK8sObject decode y2 with
      | .error _ => none
      | .ok o => some o)

/-- Skip reports contributed by each chunk of a split manifest: one report
per non-blank chunk that fails to decode, and nothing for blank chunks. -/
def chunkReports (decode : GoStr → Except GoStr UnstructuredObj) (ys : List GoStr) :
    List GoStr :=
  ys.filterMap (fun y =>
    let y2 := removeNonYAMLLines y
    if y2 = [] then none
    else
      match ParseYAMLToK8sObject decode y2 with
      | .error msg => some msg
      | .ok _ => none)

/-- Denotation of a pattern list for filtering: a key matches the list when
some pattern in it compiles and its compiled form matches the key. -/
def matchesAny (compile : GoStr → Option (GoStr → Bool)) (pats : List GoStr)
    (k : GoStr) : Prop :=
  ∃ p ∈ pats, ∃ re, buildResourceRegexp compile (goTrimSpace p) = some re ∧ re k = true

/-- Rewritten keys contributed by the rename rules that match a given key:
one rewrite per matching rule, with wildcard components inheriting the
original key components. -/
def ruleRewrites (compile : GoStr → Option (GoStr → Bool)) (name : GoStr)
    (rnm : List (GoStr × GoStr)) : List GoStr :=
  rnm.filterMap (fun rule =>
    match buildResourceRegexp compile (goTrimSpace rule.1) with
    | none => none
    | some re =>
      if re name then
        some (joinChar ':' (List.zipWith
          (fun t f => if t = [] ∨ t = ['*'] then f else t)
          (splitChar ':' rule.2) (splitChar ':' name)))
      else none)

/-- Concrete environment exercising the C1 deletion path: delete fails,
persistence succeeds at once. -/
def c1Env : SetsCtrl.Env :=
  { getResult := .ok ⟨true, [finalizer]⟩
    factoryErr := none
    deleteErr := some (KErr.other 7)
    reconcileErr := none
    refetchFinalizers := fun _ => [finalizer]
    updateErr := fun _ => none }

/-- Concrete environment exercising the out-of-range slicing of the
slice-based conflict-retry loop: the first update conflicts, and the
re-fetched resource no longer carries the finalizer token. -/
def c9Env : SliceCtrl.Env :=
  { getResult := .ok ⟨true, [finalizer]⟩
    marshalErr := none
    unmarshalErr := none
    factoryErr := none
    deleteErr := none
    reconcileErr := none
    refetchFinalizers := fun _ => []
    updateErr := fun _ => some KErr.conflict }

/-- Concrete environment for C5 on the set-based variant. -/
def c5Env : SetsCtrl.Env :=
  { getResult := .ok ⟨false, []⟩
    factoryErr := none
    deleteErr := none
    reconcileErr := none
    refetchFinalizers := fun _ => []
    updateErr := fun _ => none }

/-- Concrete environment for C5 on the slice-based variant. -/
def c5Env2 : SliceCtrl.Env :=
  { getResult := .ok ⟨false, []⟩
    marshalErr := none
    unmarshalErr := none
    factoryErr := none
    deleteErr := none
    reconcileErr := none
    refetchFinalizers := fun _ => []
    updateErr := fun _ => none }

/-- The scenario manifest text of C6. -/
def c6Text : GoStr := ("kind: Deployment\nmetadata:\n  name: x\n---\n# disabled\n").data

/-- The first chunk of the scenario text after comment stripping. -/
def c6Chunk : GoStr := ("kind: Deployment\nmetadata:\n  name: x").data

/-- A concrete decoder oracle for the scenario: it accepts exactly the
stripped first chunk. -/
def c6Decode : GoStr → Except GoStr UnstructuredObj :=
  fun y =>
    if y = c6Chunk then .ok ⟨[], ("Deployment").data, ("x").data, [], [], 0⟩
    else .error ("failed to parse YAML").data

/-- The concrete object used by the diff-engine counterexamples. -/
def c4Obj : K8sObject :=
  NewK8sObject ⟨[], ("Deployment").data, ("a").data, ("ns").data, [], 0⟩ none none

/-- The identity key used by the rename counterexample. -/
def c3Key : GoStr := ("Deployment:ns:old").data

/-- Two rename rules that both match `c3Key`. -/
def c3Rules : List (GoStr × GoStr) :=
  [(("Deployment:*:old").data, ("Deployment:*:new1").data),
   (("Deployment:*:old").data, ("Deployment:*:new2").data)]

/-! Helper lemmas about the set-based controller's conflict-retry loop. -/

theorem removalRetryLoop_not_conflict (env : SetsCtrl.Env) (fe : Option KErr) (k n : Nat)
    (h : isConflictOpt fe = false) :
    SetsCtrl.removalRetryLoop env fe k n = (fe, []) := by
  cases n <;> simp [SetsCtrl.removalRetryLoop, h]

theorem removalRetryLoop_length (env : SetsCtrl.Env) :
    ∀ (n k : Nat) (fe : Option KErr),
      (SetsCtrl.removalRetryLoop env fe k n).2.length ≤ n := by
  intro n
  induction n with
  | zero => intro k fe; simp [SetsCtrl.removalRetryLoop]
  | succ n ih =>
    intro k fe
    by_cases h : isConflictOpt fe = true
    · simp only [SetsCtrl.removalRetryLoop, h, if_true, List.length_cons]
      exact Nat.succ_le_succ (ih (k + 1) (env.updateErr k))
    · rw [removalRetryLoop_not_conflict env fe k (n + 1) (by simpa using h)]
      simp

theorem removalRetryLoop_all_conflict (env : SetsCtrl.Env) :
    ∀ (n k : Nat) (fe : Option KErr),
      isConflictOpt fe = true →
      (∀ j, j < k + n → isConflictOpt (env.updateErr j) = true) →
      (SetsCtrl.removalRetryLoop env fe k n).1 =
        if n = 0 then fe else env.updateErr (k + n - 1) := by
  intro n
  induction n with
  | zero => intro k fe _ _; simp [SetsCtrl.removalRetryLoop]
  | succ n ih =>
    intro k fe hfe hall
    simp only [SetsCtrl.removalRetryLoop, hfe, if_true]
    have h1 : (SetsCtrl.removalRetryLoop env (env.updateErr k) (k + 1) n).1 =
        if n = 0 then env.updateErr k else env.updateErr (k + 1 + n - 1) :=
      ih (k + 1) (env.updateErr k) (hall k (by omega)) (fun j hj => hall j (by omega))
    rw [h1]
    cases n with
    | zero => simp
    | succ m => simp only [if_neg (Nat.succ_ne_zero m), if_neg (Nat.succ_ne_zero (m + 1))]; congr 1; omega

theorem removalRetryLoop_congr (env env2 : SetsCtrl.Env)
    (hr : env.refetchFinalizers = env2.refetchFinalizers)
    (hu : env.updateErr = env2.updateErr) :
    ∀ (n k : Nat) (fe : Option KErr),
      SetsCtrl.removalRetryLoop env fe k n = SetsCtrl.removalRetryLoop env2 fe k n := by
  intro n
  induction n with
  | zero => intro k fe; rfl
  | succ n ih =>
    intro k fe
    simp only [SetsCtrl.removalRetryLoop, hr, hu, ih (k + 1) (env2.updateErr k)]

theorem reconcile_deleting_eq (env : SetsCtrl.Env) (icp : ICP)
    (hget : env.getResult = .ok icp)
    (hdel : icp.deletionTimestampSet = true)
    (hfin : setsHas (setsNewString icp.finalizers) finalizer = true) :
    SetsCtrl.Reconcile env =
      (match (SetsCtrl.removalRetryLoop env (env.updateErr 0) 1 finalizerMaxRetries).1 with
       | some fe =>
         ⟨some fe,
          setsList (setsDelete (setsNewString icp.finalizers) finalizer) ::
            (SetsCtrl.removalRetryLoop env (env.updateErr 0) 1 finalizerMaxRetries).2,
          env.factoryErr.isNone, false⟩
       | none =>
         ⟨(match env.factoryErr with | none => env.deleteErr | some e => some e),
          setsList (setsDelete (setsNewString icp.finalizers) finalizer) ::
            (SetsCtrl.removalRetryLoop env (env.updateErr 0) 1 finalizerMaxRetries).2,
          env.factoryErr.isNone, false⟩) := by
  unfold SetsCtrl.Reconcile
  rw [hget]
  simp only [hdel, hfin, Bool.not_true, if_true, if_false, Bool.false_eq_true]

/-- C1: in the deletion path of `Reconcile` (deletion marker set, finalizer
token present), the first persisted update removes the finalizer token and
is issued regardless of the delete operation's outcome; the update is
retried on conflict at most `finalizerMaxRetries` times (at most 11
attempts in total); if every attempt conflicts, the final result is the
last persistence error (a conflict), not the delete error; a non-conflict
persistence error on the first attempt is returned at once with no retry;
and when persistence succeeds the delete operation's error is the final
result. -/
theorem c1_deletion_finalizer_removal (env : SetsCtrl.Env) (icp : ICP)
    (hget : env.getResult = .ok icp)
    (hdel : icp.deletionTimestampSet = true)
    (hfin : setsHas (setsNewString icp.finalizers) finalizer = true) :
    ((SetsCtrl.Reconcile env).updates.head? =
        some (setsList (setsDelete (setsNewString icp.finalizers) finalizer))
      ∧ finalizer ∉ setsList (setsDelete (setsNewString icp.finalizers) finalizer))
    ∧ (∀ d f, (SetsCtrl.Reconcile { env with deleteErr := d, factoryErr := f }).updates =
        (SetsCtrl.Reconcile env).updates)
    ∧ (SetsCtrl.Reconcile env).updates.length ≤ finalizerMaxRetries + 1
    ∧ ((∀ j, j ≤ finalizerMaxRetries → env.updateErr j = some KErr.conflict) →
        (SetsCtrl.Reconcile env).err = env.updateErr finalizerMaxRetries)
    ∧ (∀ e, env.updateErr 0 = some e → e ≠ KErr.conflict →
        (SetsCtrl.Reconcile env).err = some e ∧ (SetsCtrl.Reconcile env).updates.length = 1)
    ∧ (env.updateErr 0 = none → env.factoryErr = none →
        (SetsCtrl.Reconcile env).err = env.deleteErr ∧
          (SetsCtrl.Reconcile env).deleteOpInvoked = true) := by
  have hre := reconcile_deleting_eq env icp hget hdel hfin
  refine ⟨⟨?_, ?_⟩, ?_, ?_, ?_, ?_, ?_⟩
  · rw [hre]
    cases (SetsCtrl.removalRetryLoop env (env.updateErr 0) 1 finalizerMaxRetries).1 <;> rfl
  · intro hmem
    have hperm := List.perm_insertionSort strLe (setsDelete (setsNewString icp.finalizers) finalizer)
    have hmem2 : finalizer ∈ setsDelete (setsNewString icp.finalizers) finalizer :=
      hperm.mem_iff.mp hmem
    have hnd : (setsNewString icp.finalizers).Nodup := List.nodup_dedup icp.finalizers
    rw [setsDelete, List.Nodup.mem_erase_iff hnd] at hmem2
    exact hmem2.1 rfl
  · intro d f
    have hre2 := reconcile_deleting_eq { env with deleteErr := d, factoryErr := f } icp hget hdel hfin
    rw [hre, hre2]
    rw [removalRetryLoop_congr { env with deleteErr := d, factoryErr := f } env rfl rfl
      finalizerMaxRetries 1 (env.updateErr 0)]
    cases (SetsCtrl.removalRetryLoop env (env.updateErr 0) 1 finalizerMaxRetries).1 <;> rfl
  · rw [hre]
    have hlen := removalRetryLoop_length env finalizerMaxRetries 1 (env.updateErr 0)
    cases (SetsCtrl.removalRetryLoop env (env.updateErr 0) 1 finalizerMaxRetries).1 <;>
      simpa using Nat.succ_le_succ hlen
  · intro hall
    have hc : isConflictOpt (env.updateErr 0) = true := by
      rw [hall 0 (by omega)]; rfl
    have h1 := removalRetryLoop_all_conflict env finalizerMaxRetries 1 (env.updateErr 0) hc
      (fun j hj => by rw [hall j (by omega : j ≤ finalizerMaxRetries)]; rfl)
    rw [hre]
    rw [show (1 + finalizerMaxRetries - 1) = finalizerMaxRetries by omega] at h1
    rw [if_neg (by decide : ¬ finalizerMaxRetries = 0)] at h1
    rw [h1, hall finalizerMaxRetries (by omega)]
  · intro e he hne
    have hc : isConflictOpt (env.updateErr 0) = false := by
      rw [he]; cases e <;> first | rfl | exact (hne rfl).elim
    have h1 := removalRetryLoop_not_conflict env (env.updateErr 0) 1 finalizerMaxRetries hc
    rw [hre, h1, he]
    exact ⟨rfl, rfl⟩
  · intro hu hf
    have h1 := removalRetryLoop_not_conflict env (env.updateErr 0) 1 finalizerMaxRetries
      (by rw [hu]; rfl)
    rw [hre, h1, hu, hf]
    exact ⟨rfl, rfl⟩

/-- Witness for C1: on `c1Env` the finalizer removal is persisted and the
delete operation's error is the final result. -/
theorem c1_deletion_finalizer_removal_witness :
    (SetsCtrl.Reconcile c1Env).err = some (KErr.other 7) ∧
      (SetsCtrl.Reconcile c1Env).updates.head? = some [] := by
  have h := c1_deletion_finalizer_removal c1Env ⟨true, [finalizer]⟩ rfl rfl (by decide)
  refine ⟨(h.2.2.2.2.2 rfl rfl).1, ?_⟩
  have h1 := h.1.1
  rw [h1]
  rfl

/-! Helper lemmas about `indexOf` and slice removal. -/

theorem indexOf_lt_length (s : String) : ∀ l : List String, indexOf l s < (l.length : Int) := by
  intro l
  induction l with
  | nil => simp [indexOf]
  | cons x xs ih =>
    simp only [indexOf, List.length_cons]
    by_cases hx : x = s
    · simp only [hx, if_true]
      push_cast
      omega
    · simp only [hx, if_false]
      by_cases hr : indexOf xs s < 0
      · simp only [hr, if_true]
        push_cast
        omega
      · simp only [hr, if_false]
        push_cast
        omega

theorem indexOf_neg_iff (s : String) : ∀ l : List String, indexOf l s < 0 ↔ s ∉ l := by
  intro l
  induction l with
  | nil => simp [indexOf]
  | cons x xs ih =>
    simp only [indexOf, List.mem_cons]
    by_cases hx : x = s
    · simp [hx]
    · simp only [hx, if_false]
      by_cases hr : indexOf xs s < 0
      · simp only [hr, if_true]
        constructor
        · intro _ hc
          rcases hc with hc | hc
          · exact hx hc.symm
          · exact (ih.mp hr) hc
        · intro _; omega
      · simp only [hr, if_false]
        constructor
        · intro hc; omega
        · intro hc
          exact absurd (by omega : ¬ indexOf xs s < 0) (fun h2 => hc (Or.inr ((ih.not_left).mp h2)))

theorem indexOf_nonneg_of_mem (l : List String) (s : String) (h : s ∈ l) :
    0 ≤ indexOf l s := by
  by_contra hc
  exact (indexOf_neg_iff s l).mp (by omega) h

theorem removeAtGo_indexOf_isSome (l : List String) (s : String) (h : 0 ≤ indexOf l s) :
    (removeAtGo l (indexOf l s)).isSome = true := by
  have h2 := indexOf_lt_length s l
  rw [removeAtGo, if_pos ⟨h, by omega⟩]
  rfl

theorem sliceLoop_ne_none (env : SliceCtrl.Env)
    (h : ∀ k, finalizer ∈ env.refetchFinalizers k) :
    ∀ (n k : Nat) (fe : Option KErr), SliceCtrl.removalRetryLoop env fe k n ≠ none := by
  intro n
  induction n with
  | zero => intro k fe; simp [SliceCtrl.removalRetryLoop]
  | succ n ih =>
    intro k fe
    by_cases hc : isConflictOpt fe = true
    · simp only [SliceCtrl.removalRetryLoop, hc, if_true]
      have h0 : 0 ≤ indexOf (env.refetchFinalizers k) finalizer :=
        indexOf_nonneg_of_mem _ _ (h k)
      have h2 := removeAtGo_indexOf_isSome (env.refetchFinalizers k) finalizer h0
      cases hrm : removeAtGo (env.refetchFinalizers k)
          (indexOf (env.refetchFinalizers k) finalizer) with
      | none => rw [hrm] at h2; exact absurd h2 (by simp)
      | some fins2 =>
        cases hrest : SliceCtrl.removalRetryLoop env (env.updateErr k) (k + 1) n with
        | none => exact absurd hrest (ih (k + 1) (env.updateErr k))
        | some rest => simp
    · simp [SliceCtrl.removalRetryLoop, hc]

/-- C9: the slice-based conflict-retry loop recomputes the finalizer index
after re-fetching but never checks it for absence.  The whole `Reconcile`
is free of out-of-range slicing whenever every re-fetched resource still
contains the finalizer token; and on the concrete execution `c9Env`, where
another actor removed the token between the conflict and the re-fetch, the
slice expression indexes out of range (modelled as `none`). -/
theorem c9_removal_loop_out_of_range :
    (∀ env : SliceCtrl.Env, (∀ k, finalizer ∈ env.refetchFinalizers k) →
        SliceCtrl.Reconcile env ≠ none)
    ∧ SliceCtrl.Reconcile c9Env = none := by
  constructor
  · intro env h
    cases hg : env.getResult with
    | error e => simp only [SliceCtrl.Reconcile, hg]; split <;> simp
    | ok u =>
      simp only [SliceCtrl.Reconcile, hg]
      cases hm : env.marshalErr with
      | some e => simp
      | none =>
        cases hum : env.unmarshalErr with
        | some e => simp
        | none =>
          simp only []
          by_cases hdel : u.deletionTimestampSet = true
          · simp only [hdel, if_true]
            by_cases hidx : indexOf u.finalizers finalizer < 0
            · simp [hidx]
            · simp only [hidx, if_false]
              have h2 := removeAtGo_indexOf_isSome u.finalizers finalizer (by omega)
              cases hrm : removeAtGo u.finalizers (indexOf u.finalizers finalizer) with
              | none => rw [hrm] at h2; exact absurd h2 (by simp)
              | some fins1 =>
                simp only [hrm]
                cases hloop : SliceCtrl.removalRetryLoop env (env.updateErr 0) 1
                    finalizerMaxRetries with
                | none => exact absurd hloop (sliceLoop_ne_none env h finalizerMaxRetries 1 _)
                | some res =>
                  cases hr1 : res.1 <;> simp [hr1]
          · simp only [Bool.not_eq_true] at hdel
            simp only [hdel, Bool.false_eq_true, if_false]
            by_cases hidx : indexOf u.finalizers finalizer < 0
            · simp only [hidx, if_true]
              split <;> simp
            · simp [hidx]
  · rfl

/-- Witness for C9: a deletion-path run whose every re-fetch still contains
the token does not panic. -/
theorem c9_removal_loop_out_of_range_witness :
    SliceCtrl.Reconcile { c9Env with refetchFinalizers := fun _ => [finalizer] } ≠ none :=
  c9_removal_loop_out_of_range.1 { c9Env with refetchFinalizers := fun _ => [finalizer] }
    (fun _ => List.mem_singleton.mpr rfl)

/-! Helper lemmas for the finalizer-addition path. -/

theorem reconcile_addpath_eq (env : SetsCtrl.Env) (icp : ICP)
    (hget : env.getResult = .ok icp)
    (hdel : icp.deletionTimestampSet = false)
    (hfin : setsHas (setsNewString icp.finalizers) finalizer = false) :
    SetsCtrl.Reconcile env =
      (match env.updateErr 0 with
       | some e =>
         ⟨some e, [setsList (setsInsert (setsNewString icp.finalizers) finalizer)],
          false, false⟩
       | none =>
         SetsCtrl.updateTail env
           [setsList (setsInsert (setsNewString icp.finalizers) finalizer)]) := by
  unfold SetsCtrl.Reconcile
  rw [hget]
  simp only [hdel, hfin, Bool.not_false, if_true, Bool.false_eq_true, if_false]

theorem slice_addpath_eq (env : SliceCtrl.Env) (u : ICP)
    (hget : env.getResult = .ok u)
    (hm : env.marshalErr = none) (hum : env.unmarshalErr = none)
    (hdel : u.deletionTimestampSet = false)
    (hfin : indexOf u.finalizers finalizer < 0) :
    SliceCtrl.Reconcile env =
      some (match env.updateErr 0 with
       | some e => ⟨some e, [u.finalizers ++ [finalizer]], false, false⟩
       | none => SliceCtrl.updateTail env [u.finalizers ++ [finalizer]]) := by
  simp only [SliceCtrl.Reconcile, hget, hm, hum, hdel, Bool.false_eq_true, if_false,
    if_pos hfin]
  cases env.updateErr 0 <;> rfl

theorem setsList_insert_count (fins : List String)
    (hfin : setsHas (setsNewString fins) finalizer = false) :
    List.count finalizer (setsList (setsInsert (setsNewString fins) finalizer)) = 1 := by
  have hc : (setsNewString fins).contains finalizer = false := hfin
  have hnm : finalizer ∉ setsNewString fins := by simpa using hc
  have hperm := List.perm_insertionSort strLe (setsInsert (setsNewString fins) finalizer)
  rw [setsList, hperm.count_eq]
  rw [setsInsert, hc]
  simp [List.count_append, List.count_eq_zero.mpr hnm]

/-- C5: on a resource with no deletion marker and without the finalizer
token, `Reconcile` persists exactly one update whose finalizer list
contains exactly one instance of the token; a failure of that single
attempt (conflict included — there is no retry here) is returned at once
and the per-resource reconciler's update operation is not invoked.  Both
the set-based and the slice-based variants are covered. -/
theorem c5_add_finalizer_single_attempt
    (env : SetsCtrl.Env) (icp : ICP)
    (hget : env.getResult = .ok icp)
    (hdel : icp.deletionTimestampSet = false)
    (hfin : setsHas (setsNewString icp.finalizers) finalizer = false)
    (env2 : SliceCtrl.Env) (u : ICP)
    (hget2 : env2.getResult = .ok u)
    (hm2 : env2.marshalErr = none) (hum2 : env2.unmarshalErr = none)
    (hdel2 : u.deletionTimestampSet = false)
    (hfin2 : indexOf u.finalizers finalizer < 0) :
    ((SetsCtrl.Reconcile env).updates =
        [setsList (setsInsert (setsNewString icp.finalizers) finalizer)]
      ∧ List.count finalizer (setsList (setsInsert (setsNewString icp.finalizers) finalizer)) = 1
      ∧ (∀ e, env.updateErr 0 = some e →
          (SetsCtrl.Reconcile env).err = some e ∧
            (SetsCtrl.Reconcile env).updateOpInvoked = false)
      ∧ (env.updateErr 0 = none → env.factoryErr = none →
          (SetsCtrl.Reconcile env).err = env.reconcileErr ∧
            (SetsCtrl.Reconcile env).updateOpInvoked = true))
    ∧ ((SliceCtrl.Reconcile env2).map Outcome.updates = some [u.finalizers ++ [finalizer]]
      ∧ List.count finalizer (u.finalizers ++ [finalizer]) = 1
      ∧ (∀ e, env2.updateErr 0 = some e →
          SliceCtrl.Reconcile env2 =
            some ⟨some e, [u.finalizers ++ [finalizer]], false, false⟩)) := by
  have hre := reconcile_addpath_eq env icp hget hdel hfin
  have hre2 := slice_addpath_eq env2 u hget2 hm2 hum2 hdel2 hfin2
  refine ⟨⟨?_, setsList_insert_count icp.finalizers hfin, ?_, ?_⟩, ?_, ?_, ?_⟩
  · rw [hre]
    cases env.updateErr 0 with
    | none => unfold SetsCtrl.updateTail; cases env.factoryErr <;> rfl
    | some e => rfl
  · intro e he
    rw [hre, he]
    exact ⟨rfl, rfl⟩
  · intro hu hf
    rw [hre, hu]
    unfold SetsCtrl.updateTail
    rw [hf]
    exact ⟨rfl, rfl⟩
  · rw [hre2]
    cases env2.updateErr 0 with
    | none => unfold SliceCtrl.updateTail; cases env2.factoryErr <;> rfl
    | some e => rfl
  · have hnm : finalizer ∉ u.finalizers := (indexOf_neg_iff finalizer u.finalizers).mp hfin2
    simp [List.count_append, List.count_eq_zero.mpr hnm]
  · intro e he
    rw [hre2, he]

/-- Witness for C5: on a fresh resource both variants persist exactly the
singleton finalizer list. -/
theorem c5_add_finalizer_single_attempt_witness :
    (SetsCtrl.Reconcile c5Env).updates = [[finalizer]] ∧
      (SliceCtrl.Reconcile c5Env2).map Outcome.updates = some [[finalizer]] := by
  have h := c5_add_finalizer_single_attempt c5Env ⟨false, []⟩ rfl rfl (by decide)
    c5Env2 ⟨false, []⟩ rfl rfl rfl rfl (by decide)
  exact ⟨h.1.1, h.2.1⟩

/-! Helper lemma for the apply-run error aggregation. -/

theorem applyRunErrors_foldl (out : GoStr → ComponentApplyOutput) :
    ∀ (l : List GoStr) (b : Bool),
      l.foldl
        (fun gotError cn =>
          let g1 := if (out cn).Err.isSome then true else gotError
          if ! ignoreError (out cn).Stderr then true else g1)
        b
      = (b || l.any (fun cn => (out cn).Err.isSome || ! ignoreError (out cn).Stderr)) := by
  intro l
  induction l with
  | nil => intro b; simp
  | cons x xs ih =>
    intro b
    simp only [List.foldl_cons, List.any_cons, ih]
    cases hx : (out x).Err.isSome <;> cases hi : ignoreError (out x).Stderr <;>
      cases b <;> simp

/-- C2: the run-level failure boolean surfaced by `genApplyManifests` is
true exactly when some component's outcome carries a non-nil error or
non-ignorable standard error, where standard error is ignorable exactly
when it is empty after trimming or its trimmed form begins with an
allow-listed prefix; a run whose components all succeed with only
ignorable standard error is not marked as failed, and the full
per-component detail accompanies the boolean. -/
theorem c2_apply_error_aggregation (components : List GoStr)
    (out : GoStr → ComponentApplyOutput) :
    ((genApplyManifestsResult components out).1 = true ↔
      ∃ cn ∈ components, (out cn).Err.isSome = true ∨ ignoreError (out cn).Stderr = false)
    ∧ (∀ s, ignoreError s = true ↔
        goTrimSpace s = [] ∨ ∃ p ∈ ignoreStdErrList, p.isPrefixOf (goTrimSpace s) = true)
    ∧ ((∀ cn ∈ components, (out cn).Err = none ∧ ignoreError (out cn).Stderr = true) →
        (genApplyManifestsResult components out).1 = false)
    ∧ (∀ cn ∈ components, (cn, out cn) ∈ (genApplyManifestsResult components out).2) := by
  have hfold := applyRunErrors_foldl out components false
  refine ⟨?_, ?_, ?_, ?_⟩
  · rw [genApplyManifestsResult, applyRunHasErrors]
    rw [hfold]
    simp only [Bool.false_or, List.any_eq_true, Bool.or_eq_true, Bool.not_eq_true']
  · intro s
    rw [ignoreError]
    by_cases ha : ignoreStdErrList.any (fun ignore => ignore.isPrefixOf (goTrimSpace s)) = true
    · simp only [ha, if_true, true_iff]
      right
      simpa using ha
    · simp only [Bool.not_eq_true] at ha
      simp only [ha, Bool.false_eq_true, if_false, List.isEmpty_iff]
      constructor
      · intro h2; exact Or.inl h2
      · intro h2
        rcases h2 with h2 | h2
        · exact h2
        · rcases h2 with ⟨p, hp, hpre⟩
          exact absurd hpre (List.any_eq_false.mp ha p hp)
  · intro hall
    rw [genApplyManifestsResult, applyRunHasErrors, hfold]
    simp only [Bool.false_or, List.any_eq_false]
    intro cn hcn
    simp [(hall cn hcn).1, (hall cn hcn).2]
  · intro cn hcn
    simp only [genApplyManifestsResult]
    exact List.mem_map.mpr ⟨cn, hcn, rfl⟩

/-- Witness for C2: a component with a non-nil error marks the run as
failed. -/
theorem c2_apply_error_aggregation_witness :
    (genApplyManifestsResult [("pilot").data]
      (fun _ => ⟨[], [], some (KErr.other 1)⟩)).1 = true :=
  (c2_apply_error_aggregation [("pilot").data]
    (fun _ => ⟨[], [], some (KErr.other 1)⟩)).1.mpr
    ⟨("pilot").data, List.mem_singleton.mpr rfl, Or.inl rfl⟩

/-! Helper lemmas about `goLastIndexChar`. -/

theorem goLastIndexChar_lt_length (c : Char) :
    ∀ s : GoStr, goLastIndexChar s c < (s.length : Int) := by
  intro s
  induction s with
  | nil => simp [goLastIndexChar]
  | cons x xs ih =>
    simp only [goLastIndexChar, List.length_cons]
    by_cases hr : 0 ≤ goLastIndexChar xs c
    · simp only [hr, if_true]
      push_cast
      omega
    · simp only [hr, if_false]
      by_cases hx : x = c
      · simp only [hx, if_true]
        push_cast
        omega
      · simp only [hx, if_false]
        push_cast
        omega

theorem goLastIndexChar_neg_iff (c : Char) :
    ∀ s : GoStr, goLastIndexChar s c < 0 ↔ c ∉ s := by
  intro s
  induction s with
  | nil => simp [goLastIndexChar]
  | cons x xs ih =>
    simp only [goLastIndexChar, List.mem_cons]
    by_cases hr : 0 ≤ goLastIndexChar xs c
    · simp only [hr, if_true]
      constructor
      · intro hc; exfalso; omega
      · intro hc
        have hmem : c ∈ xs := by
          by_contra hnm
          exact absurd (ih.mpr hnm) (by omega)
        exact absurd (Or.inr hmem) hc
    · simp only [hr, if_false]
      by_cases hx : x = c
      · simp only [hx, if_true]
        constructor
        · intro hc; exfalso; omega
        · intro hc; exact absurd (Or.inl trivial) hc
      · simp only [hx, if_false]
        constructor
        · intro _ hc
          rcases hc with hc | hc
          · exact hx hc.symm
          · exact (ih.mp (by omega)) hc
        · intro _; omega

/-- C10: `fetchInstallPackageFromURL` leaves the specification unchanged
(and returns no error) when the install-package path is not an HTTP URL;
for URL paths with successful fetching it rewrites the local path field
whenever the base path segment contains a `-`; and on the concrete URL
input whose base name contains no `-`, `strings.LastIndex` returns `-1`
and the slice expression indexes out of range (modelled as `none`). -/
theorem c10_fetch_install_package_url :
    (∀ (env : FetchEnv) (icps : ICPS), env.isHTTPURL icps.installPackagePath = false →
        fetchInstallPackageFromURL env icps = some (none, icps))
    ∧ (∀ (env : FetchEnv) (icps : ICPS), env.isHTTPURL icps.installPackagePath = true →
        env.newURLFetcherErr = none → env.fetchBundlesErr = none →
        '-' ∈ goPathBase icps.installPackagePath →
        fetchInstallPackageFromURL env icps =
          some (none,
            ⟨env.joinPath env.destDir
              ((goPathBase icps.installPackagePath).take
                (goLastIndexChar (goPathBase icps.installPackagePath) ( '-' )).toNat)
              env.chartsFilePath⟩))
    ∧ fetchInstallPackageFromURL
        { isHTTPURL := fun _ => true
          newURLFetcherErr := none
          fetchBundlesErr := none
          destDir := ("/tmp/dir").data
          joinPath := fun a b c => a ++ b ++ c
          chartsFilePath := [] }
        ⟨("http://host/pkg").data⟩ = none := by
  refine ⟨?_, ?_, ?_⟩
  · intro env icps h
    simp [fetchInstallPackageFromURL, h]
  · intro env icps hurl hnew hfetch hmem
    have h1 := goLastIndexChar_lt_length ( '-' ) (goPathBase icps.installPackagePath)
    have h2 : ¬ goLastIndexChar (goPathBase icps.installPackagePath) ( '-' ) < 0 :=
      fun hc => (goLastIndexChar_neg_iff ( '-' )
        (goPathBase icps.installPackagePath)).mp hc hmem
    simp only [fetchInstallPackageFromURL, hurl, if_true, hnew, hfetch]
    rw [if_pos ⟨by omega, by omega⟩]
  · rfl

/-- Witness for C10: a non-URL path passes through unchanged, and a URL
path whose base name contains a `-` is rewritten without a panic. -/
theorem c10_fetch_install_package_url_witness :
    fetchInstallPackageFromURL
        { isHTTPURL := fun _ => false
          newURLFetcherErr := none
          fetchBundlesErr := none
          destDir := []
          joinPath := fun a b c => a ++ b ++ c
          chartsFilePath := [] }
        ⟨("charts/istio").data⟩ = some (none, ⟨("charts/istio").data⟩)
    ∧ fetchInstallPackageFromURL
        { isHTTPURL := fun _ => true
          newURLFetcherErr := none
          fetchBundlesErr := none
          destDir := ("/d").data
          joinPath := fun a b c => a ++ b ++ c
          chartsFilePath := ("/c").data }
        ⟨("http://host/istio-1.3.0").data⟩ =
          some (none, ⟨(("/d").data ++ ("istio").data ++ ("/c").data)⟩) := by
  constructor
  · exact c10_fetch_install_package_url.1 _ _ rfl
  · rw [c10_fetch_install_package_url.2.1 _ _ rfl rfl rfl (by decide)]
    rfl

/-! Helper lemmas about Go map writes. -/

theorem mapLookup_mapSet {β : Type} (k : GoStr) (v : β) (k2 : GoStr) :
    ∀ m : GoMap β, mapLookup (mapSet m k v) k2 = if k = k2 then some v else mapLookup m k2 := by
  intro m
  induction m with
  | nil =>
    by_cases h : k = k2 <;> simp [mapSet, mapLookup, h]
  | cons kv rest ih =>
    by_cases h0 : kv.1 = k
    · by_cases h : k = k2 <;> simp [mapSet, mapLookup, h0, h]
    · by_cases h : k = k2
      · subst h
        simp [mapSet, mapLookup, h0, ih]
      · simp [mapSet, mapLookup, h0, h, ih]

theorem foldl_mapSet_lookup_notmem {β : Type} (k : GoStr) :
    ∀ (ps : GoMap β) (m : GoMap β), k ∉ mapKeys ps →
      mapLookup (ps.foldl (fun m2 kv => mapSet m2 kv.1 kv.2) m) k = mapLookup m k := by
  intro ps
  induction ps with
  | nil => intro m _; rfl
  | cons kv rest ih =>
    intro m hk
    have hk1 : ¬ kv.1 = k := by
      intro hc
      apply hk
      rw [show mapKeys (kv :: rest) = kv.1 :: mapKeys rest from rfl, ← hc]
      exact List.mem_cons_self kv.1 (mapKeys rest)
    have hk2 : k ∉ mapKeys rest := by
      intro hc
      apply hk
      rw [show mapKeys (kv :: rest) = kv.1 :: mapKeys rest from rfl]
      exact List.mem_cons_of_mem kv.1 hc
    simp only [List.foldl_cons]
    rw [ih (mapSet m kv.1 kv.2) hk2, mapLookup_mapSet, if_neg hk1]

theorem foldl_mapSet_lookup_mem {β : Type} (k : GoStr) (v : β) :
    ∀ (ps : GoMap β) (m : GoMap β), (mapKeys ps).Nodup →
      mapLookup ps k = some v →
      mapLookup (ps.foldl (fun m2 kv => mapSet m2 kv.1 kv.2) m) k = some v := by
  intro ps
  induction ps with
  | nil => intro m _ h; simp [mapLookup] at h
  | cons kv rest ih =>
    intro m hnd hl
    have hnd3 : (kv.1 :: mapKeys rest).Nodup := hnd
    have hnd2 := List.nodup_cons.mp hnd3
    simp only [List.foldl_cons]
    by_cases h0 : kv.1 = k
    · have hv : some kv.2 = some v := by
        simpa [mapLookup, h0] using hl
      rw [foldl_mapSet_lookup_notmem k rest (mapSet m kv.1 kv.2) (h0 ▸ hnd2.1)]
      rw [mapLookup_mapSet, if_pos h0]
      exact hv
    · have hl2 : mapLookup rest k = some v := by
        simpa [mapLookup, h0] using hl
      exact ih (mapSet m kv.1 kv.2) hnd2.2 hl2

/-- C8: merging labels with `AddLabels` invalidates both serialization
caches, so a subsequent JSON or YAML rendering marshals the updated
underlying object (which carries every merged label); and neither the
label merge nor the cache-filling `YAML` rendering changes the object's
group, kind, name or namespace (`YAML` changes nothing but the caches). -/
theorem c8_addlabels_cache_invalidation
    (marshal : UnstructuredObj → Except GoStr GoStr)
    (jsonToYAML : GoStr → Except GoStr GoStr)
    (o : K8sObject) (labels : GoMap GoStr) :
    ((AddLabels o labels).json = none ∧ (AddLabels o labels).yaml = none)
    ∧ (AddLabels o labels).JSON marshal = marshal (AddLabels o labels).object
    ∧ (∀ oj, marshal (AddLabels o labels).object = .ok oj →
        ((AddLabels o labels).YAML marshal jsonToYAML).1 = jsonToYAML oj)
    ∧ ((mapKeys labels).Nodup → ∀ k v, mapLookup labels k = some v →
        mapLookup (AddLabels o labels).object.labels k = some v)
    ∧ ((AddLabels o labels).Group = o.Group ∧ (AddLabels o labels).Kind = o.Kind ∧
        (AddLabels o labels).Name = o.Name ∧ (AddLabels o labels).Namespace = o.Namespace)
    ∧ ((o.YAML marshal jsonToYAML).2.Group = o.Group ∧
        (o.YAML marshal jsonToYAML).2.Kind = o.Kind ∧
        (o.YAML marshal jsonToYAML).2.Name = o.Name ∧
        (o.YAML marshal jsonToYAML).2.Namespace = o.Namespace ∧
        (o.YAML marshal jsonToYAML).2.object = o.object) := by
  refine ⟨⟨rfl, rfl⟩, rfl, ?_, ?_, ⟨rfl, rfl, rfl, rfl⟩, ?_⟩
  · intro oj hoj
    have hJ : (AddLabels o labels).JSON marshal = .ok oj := by
      unfold K8sObject.JSON
      exact hoj
    cases hjy : jsonToYAML oj <;>
      simp [K8sObject.YAML, hJ, hjy, show (AddLabels o labels).yaml = none from rfl]
  · intro hnd k v hl
    exact foldl_mapSet_lookup_mem k v labels _ hnd hl
  · unfold K8sObject.YAML
    split
    · exact ⟨rfl, rfl, rfl, rfl, rfl⟩
    · split
      · exact ⟨rfl, rfl, rfl, rfl, rfl⟩
      · split
        · exact ⟨rfl, rfl, rfl, rfl, rfl⟩
        · exact ⟨rfl, rfl, rfl, rfl, rfl⟩

/-- Witness for C8: merging one label over an empty object clears both
caches and the merged label is visible to the marshaller. -/
theorem c8_addlabels_cache_invalidation_witness :
    (AddLabels (NewK8sObject ⟨[], [], [], [], [], 0⟩ (some [])
        (some [])) [(("app").data, ("istio").data)]).json = none
    ∧ mapLookup (AddLabels (NewK8sObject ⟨[], [], [], [], [], 0⟩ (some [])
        (some [])) [(("app").data, ("istio").data)]).object.labels
        ("app").data = some (("istio").data) := by
  have h := c8_addlabels_cache_invalidation (fun _ => .ok []) (fun _ => .ok [])
    (NewK8sObject ⟨[], [], [], [], [], 0⟩ (some []) (some []))
    [(("app").data, ("istio").data)]
  exact ⟨h.1.1, h.2.2.2.1 (by simp [mapKeys]) (("app").data) (("istio").data) rfl⟩

/-! Order-theoretic helper lemmas for the sort comparator. -/

theorem chListLt_irrefl : ∀ a : List Char, chListLt a a = false := by
  intro a
  induction a with
  | nil => rfl
  | cons x xs ih => simp [chListLt, ih]

theorem chListLt_trans : ∀ a b c : List Char, chListLt a b = true → chListLt b c = true →
    chListLt a c = true := by
  intro a
  induction a with
  | nil =>
    intro b c h1 h2
    cases b with
    | nil => simp [chListLt] at h1
    | cons y ys =>
      cases c with
      | nil => simp [chListLt] at h2
      | cons z zs => rfl
  | cons x xs ih =>
    intro b c h1 h2
    cases b with
    | nil => simp [chListLt] at h1
    | cons y ys =>
      cases c with
      | nil => simp [chListLt] at h2
      | cons z zs =>
        simp only [chListLt] at h1 h2 ⊢
        by_cases hxy : x = y <;> by_cases hyz : y = z
        · subst hxy; subst hyz
          simp only [if_pos rfl] at h1 h2 ⊢
          exact ih ys zs h1 h2
        · subst hxy
          simp only [if_pos rfl] at h1
          simp only [hyz, if_false] at h2 ⊢
          exact h2
        · subst hyz
          simp only [hxy, if_false] at h1 ⊢
          exact h1
        · simp only [hxy, hyz, if_false] at h1 h2
          have hlt : x < z := lt_trans (of_decide_eq_true h1) (of_decide_eq_true h2)
          have hxz : ¬ x = z := by
            intro he
            rw [he] at hlt
            exact absurd hlt (lt_irrefl z)
          simp only [hxz, if_false]
          exact decide_eq_true hlt

theorem chListLt_asymm (a b : List Char) (h : chListLt a b = true) : chListLt b a = false := by
  by_contra hc
  simp only [Bool.not_eq_false] at hc
  have := chListLt_trans a b a h hc
  rw [chListLt_irrefl] at this
  exact Bool.false_ne_true this

theorem chListLt_connex : ∀ a b : List Char, chListLt a b = false → chListLt b a = false →
    a = b := by
  intro a
  induction a with
  | nil =>
    intro b h1 _
    cases b with
    | nil => rfl
    | cons y ys => simp [chListLt] at h1
  | cons x xs ih =>
    intro b h1 h2
    cases b with
    | nil => simp [chListLt] at h2
    | cons y ys =>
      simp only [chListLt] at h1 h2
      by_cases hxy : x = y
      · subst hxy
        simp only [if_pos rfl] at h1 h2
        rw [ih ys h1 h2]
      · simp only [hxy, if_false] at h1
        have hyx : ¬ y = x := fun he => hxy he.symm
        simp only [hyx, if_false] at h2
        rcases lt_trichotomy x y with hl | he | hg
        · exact absurd (decide_eq_true hl) (by simp [h1])
        · exact absurd he hxy
        · exact absurd (decide_eq_true hg) (by simp [h2])

theorem sortLt_iff (score : K8sObject → Int) (a b : K8sObject) :
    sortLt score a b = true ↔
      (score a < score b ∨ (score a = score b ∧
        (chListLt a.Group b.Group = true ∨ (a.Group = b.Group ∧
          (chListLt a.Kind b.Kind = true ∨ (a.Kind = b.Kind ∧
            chListLt a.Name b.Name = true)))))) := by
  simp only [sortLt, Bool.or_eq_true, Bool.and_eq_true, decide_eq_true_eq]
  tauto

theorem sortLt_asymmP (score : K8sObject → Int) (a b : K8sObject)
    (h1 : sortLt score a b = true) (h2 : sortLt score b a = true) : False := by
  rw [sortLt_iff] at h1 h2
  rcases h1 with h1 | ⟨e1, h1⟩ <;> rcases h2 with h2 | ⟨e2, h2⟩
  · omega
  · omega
  · omega
  · rcases h1 with h1 | ⟨g1, h1⟩ <;> rcases h2 with h2 | ⟨g2, h2⟩
    · rw [chListLt_asymm _ _ h1] at h2; exact Bool.false_ne_true h2
    · rw [g2] at h1; rw [chListLt_irrefl] at h1; exact Bool.false_ne_true h1
    · rw [g1] at h2; rw [chListLt_irrefl] at h2; exact Bool.false_ne_true h2
    · rcases h1 with h1 | ⟨k1, h1⟩ <;> rcases h2 with h2 | ⟨k2, h2⟩
      · rw [chListLt_asymm _ _ h1] at h2; exact Bool.false_ne_true h2
      · rw [k2] at h1; rw [chListLt_irrefl] at h1; exact Bool.false_ne_true h1
      · rw [k1] at h2; rw [chListLt_irrefl] at h2; exact Bool.false_ne_true h2
      · rw [chListLt_asymm _ _ h1] at h2; exact Bool.false_ne_true h2

theorem sortLt_transP (score : K8sObject → Int) (a b c : K8sObject)
    (h1 : sortLt score a b = true) (h2 : sortLt score b c = true) :
    sortLt score a c = true := by
  rw [sortLt_iff] at h1 h2 ⊢
  rcases h1 with h1 | ⟨e1, h1⟩ <;> rcases h2 with h2 | ⟨e2, h2⟩
  · left; omega
  · left; omega
  · left; omega
  · right
    refine ⟨by omega, ?_⟩
    rcases h1 with h1 | ⟨g1, h1⟩ <;> rcases h2 with h2 | ⟨g2, h2⟩
    · exact Or.inl (chListLt_trans _ _ _ h1 h2)
    · rw [g2] at h1; exact Or.inl h1
    · rw [g1]; exact Or.inl h2
    · refine Or.inr ⟨g1.trans g2, ?_⟩
      rcases h1 with h1 | ⟨k1, h1⟩ <;> rcases h2 with h2 | ⟨k2, h2⟩
      · exact Or.inl (chListLt_trans _ _ _ h1 h2)
      · rw [k2] at h1; exact Or.inl h1
      · rw [k1]; exact Or.inl h2
      · exact Or.inr ⟨k1.trans k2, chListLt_trans _ _ _ h1 h2⟩

theorem sortLt_tricho (score : K8sObject → Int) (a b : K8sObject) :
    sortLt score a b = true ∨ sortLt score b a = true ∨
      (score a = score b ∧ a.Group = b.Group ∧ a.Kind = b.Kind ∧ a.Name = b.Name) := by
  rcases lt_trichotomy (score a) (score b) with hs | hs | hs
  · exact Or.inl ((sortLt_iff score a b).mpr (Or.inl hs))
  · by_cases hg : chListLt a.Group b.Group = true
    · exact Or.inl ((sortLt_iff score a b).mpr (Or.inr ⟨hs, Or.inl hg⟩))
    · by_cases hg2 : chListLt b.Group a.Group = true
      · exact Or.inr (Or.inl ((sortLt_iff score b a).mpr (Or.inr ⟨hs.symm, Or.inl hg2⟩)))
      · have hge : a.Group = b.Group := chListLt_connex _ _
          (Bool.not_eq_true _ ▸ hg) (Bool.not_eq_true _ ▸ hg2)
        by_cases hk : chListLt a.Kind b.Kind = true
        · exact Or.inl ((sortLt_iff score a b).mpr (Or.inr ⟨hs, Or.inr ⟨hge, Or.inl hk⟩⟩))
        · by_cases hk2 : chListLt b.Kind a.Kind = true
          · exact Or.inr (Or.inl ((sortLt_iff score b a).mpr
              (Or.inr ⟨hs.symm, Or.inr ⟨hge.symm, Or.inl hk2⟩⟩)))
          · have hke : a.Kind = b.Kind := chListLt_connex _ _
              (Bool.not_eq_true _ ▸ hk) (Bool.not_eq_true _ ▸ hk2)
            by_cases hn : chListLt a.Name b.Name = true
            · exact Or.inl ((sortLt_iff score a b).mpr
                (Or.inr ⟨hs, Or.inr ⟨hge, Or.inr ⟨hke, hn⟩⟩⟩))
            · by_cases hn2 : chListLt b.Name a.Name = true
              · exact Or.inr (Or.inl ((sortLt_iff score b a).mpr
                  (Or.inr ⟨hs.symm, Or.inr ⟨hge.symm, Or.inr ⟨hke.symm, hn2⟩⟩⟩)))
              · have hne : a.Name = b.Name := chListLt_connex _ _
                  (Bool.not_eq_true _ ▸ hn) (Bool.not_eq_true _ ▸ hn2)
                exact Or.inr (Or.inr ⟨hs, hge, hke, hne⟩)
  · exact Or.inr (Or.inl ((sortLt_iff score b a).mpr (Or.inl hs)))

theorem sortLt_congr_right (score : K8sObject → Int) (a b c : K8sObject)
    (e1 : score b = score c) (e2 : b.Group = c.Group) (e3 : b.Kind = c.Kind)
    (e4 : b.Name = c.Name) : sortLt score a b = sortLt score a c := by
  simp only [sortLt, e1, e2, e3, e4]

theorem sortLt_congr_left (score : K8sObject → Int) (a b c : K8sObject)
    (e1 : score a = score b) (e2 : a.Group = b.Group) (e3 : a.Kind = b.Kind)
    (e4 : a.Name = b.Name) : sortLt score a c = sortLt score b c := by
  simp only [sortLt, e1, e2, e3, e4]

theorem sortLt_irreflP (score : K8sObject → Int) (a : K8sObject) :
    sortLt score a a = false := by
  simp [sortLt, chListLt_irrefl]

theorem sortLe_total (score : K8sObject → Int) (a b : K8sObject) :
    sortLe score a b ∨ sortLe score b a := by
  cases hba : sortLt score b a with
  | false => exact Or.inl hba
  | true =>
    cases hab : sortLt score a b with
    | false => exact Or.inr hab
    | true => exact (sortLt_asymmP score a b hab hba).elim

theorem sortLe_trans (score : K8sObject → Int) (a b c : K8sObject)
    (h1 : sortLe score a b) (h2 : sortLe score b c) : sortLe score a c := by
  unfold sortLe at h1 h2 ⊢
  by_contra hc
  simp only [Bool.not_eq_false] at hc
  rcases sortLt_tricho score a b with hab | hba | ⟨e1, e2, e3, e4⟩
  · rcases sortLt_tricho score b c with hbc | hcb | ⟨f1, f2, f3, f4⟩
    · exact sortLt_asymmP score a c (sortLt_transP score a b c hab hbc) hc
    · rw [h2] at hcb; exact absurd hcb Bool.false_ne_true
    · rw [sortLt_congr_right score a b c f1 f2 f3 f4] at hab
      exact sortLt_asymmP score a c hab hc
  · rw [h1] at hba; exact absurd hba Bool.false_ne_true
  · rcases sortLt_tricho score b c with hbc | hcb | ⟨f1, f2, f3, f4⟩
    · rw [← sortLt_congr_left score a b c e1 e2 e3 e4] at hbc
      exact sortLt_asymmP score a c hbc hc
    · rw [h2] at hcb; exact absurd hcb Bool.false_ne_true
    · rw [sortLt_congr_right score c a c (e1.trans f1) (e2.trans f2) (e3.trans f3)
        (e4.trans f4)] at hc
      rw [sortLt_irreflP] at hc
      exact Bool.false_ne_true hc

/-- C7: the ordering used by `sortObjects` — by score, then group, then
kind, then name — is total and transitive, two objects below each other
agree on the whole sort key, sorting an already-sorted sequence leaves it
unchanged, and sorting is idempotent for every score function. -/
theorem c7_sort_total_order_idempotent :
    (∀ (score : K8sObject → Int) (a b : K8sObject), sortLe score a b ∨ sortLe score b a)
    ∧ (∀ (score : K8sObject → Int) (a b c : K8sObject),
        sortLe score a b → sortLe score b c → sortLe score a c)
    ∧ (∀ (score : K8sObject → Int) (a b : K8sObject),
        sortLe score a b → sortLe score b a →
          (score a, a.Group, a.Kind, a.Name) = (score b, b.Group, b.Kind, b.Name))
    ∧ (∀ (score : K8sObject → Int) (os : List K8sObject),
        List.Sorted (sortLe score) os → sortObjects score os = os)
    ∧ (∀ (score : K8sObject → Int) (os : List K8sObject),
        sortObjects score (sortObjects score os) = sortObjects score os) := by
  refine ⟨sortLe_total, sortLe_trans, ?_, ?_, ?_⟩
  · intro score a b h1 h2
    rcases sortLt_tricho score a b with hab | hba | ⟨e1, e2, e3, e4⟩
    · rw [h2] at hab; exact absurd hab (Bool.false_ne_true)
    · rw [h1] at hba; exact absurd hba (Bool.false_ne_true)
    · rw [e1, e2, e3, e4]
  · intro score os h
    exact List.Sorted.insertionSort_eq h
  · intro score os
    haveI : IsTotal K8sObject (sortLe score) := ⟨sortLe_total score⟩
    haveI : IsTrans K8sObject (sortLe score) := ⟨sortLe_trans score⟩
    exact List.Sorted.insertionSort_eq
      (List.sorted_insertionSort (sortLe score) os)

/-- Witness for C7: sorting a sorted singleton leaves it unchanged. -/
theorem c7_sort_total_order_idempotent_witness :
    sortObjects (fun _ => 0) [NewK8sObject ⟨[], [], [], [], [], 0⟩ none none] =
      [NewK8sObject ⟨[], [], [], [], [], 0⟩ none none] :=
  c7_sort_total_order_idempotent.2.2.2.1 (fun _ => 0)
    [NewK8sObject ⟨[], [], [], [], [], 0⟩ none none]
    (List.sorted_singleton (NewK8sObject ⟨[], [], [], [], [], 0⟩ none none))

/-! Manifest-parsing helpers for C6. -/

theorem parse_manifest_foldl (decode : GoStr → Except GoStr UnstructuredObj) :
    ∀ (ys : List GoStr) (acc : List K8sObject × List GoStr),
      ys.foldl
        (fun acc y =>
          let y2 := removeNonYAMLLines y
          if y2 = [] then acc
          else
            match ParseYAMLToK8sObject decode y2 with
            | .error msg => (acc.1, acc.2 ++ [msg])
            | .ok o => (acc.1 ++ [o], acc.2))
        acc
      = (acc.1 ++ chunkObjects decode ys, acc.2 ++ chunkReports decode ys) := by
  intro ys
  induction ys with
  | nil => intro acc; simp [chunkObjects, chunkReports]
  | cons y rest ih =>
    intro acc
    simp only [List.foldl_cons, chunkObjects, chunkReports, List.filterMap_cons]
    by_cases hy : removeNonYAMLLines y = []
    · simp only [hy, if_pos rfl]
      have := ih acc
      simp only [chunkObjects, chunkReports] at this
      simp [this]
    · simp only [hy, if_neg hy]
      cases hp : ParseYAMLToK8sObject decode (removeNonYAMLLines y) with
      | error msg =>
        have := ih (acc.1, acc.2 ++ [msg])
        simp only [chunkObjects, chunkReports] at this
        simp [this]
      | ok o =>
        have := ih (acc.1 ++ [o], acc.2)
        simp only [chunkObjects, chunkReports] at this
        simp [this]

/-- Counterexample for C6 as stated: the scenario text splits into two
chunks; the second is blank after stripping and is skipped, the batch
yields exactly one object and no error — but the skip report list is
empty, so the blank-chunk skip is not reported individually. -/
theorem c6_silent_blank_skip_counterexample :
    (splitYamls (goScanLines c6Text) []).length = 2
    ∧ removeNonYAMLLines (("# disabled\n").data) = []
    ∧ (ParseK8sObjectsFromYAMLManifest c6Decode c6Text).1.length = 1
    ∧ (ParseK8sObjectsFromYAMLManifest c6Decode c6Text).2 = [] :=
  ⟨rfl, rfl, rfl, rfl⟩

/-- C6 (amended): parsing a multi-document manifest splits it at lines
equal to `---`, strips `#`-prefixed comment lines per chunk, and never
aborts the batch: every non-blank chunk that fails to decode is skipped
with one individual report, while chunks blank after stripping are
silently dropped; the scenario text parses, for every decoder accepting
its stripped first chunk as a Deployment named x, to exactly one valid
object with identity `Deployment:x`, the second chunk yielding no object,
no report and no error. -/
theorem c6_parse_manifest_amended :
    (∀ (decode : GoStr → Except GoStr UnstructuredObj) (manifest : GoStr),
      ParseK8sObjectsFromYAMLManifest decode manifest =
        (chunkObjects decode (splitYamls (goScanLines manifest) []),
         chunkReports decode (splitYamls (goScanLines manifest) [])))
    ∧ (∀ (decode : GoStr → Except GoStr UnstructuredObj) (u : UnstructuredObj),
        decode c6Chunk = .ok u →
        u.gvkKind = ("Deployment").data →
        u.uName = ("x").data →
        ParseK8sObjectsFromYAMLManifest decode c6Text =
            ([NewK8sObject u none (some c6Chunk)], [])
          ∧ (NewK8sObject u none (some c6Chunk)).Valid = true
          ∧ (NewK8sObject u none (some c6Chunk)).HashNameKind = ("Deployment:x").data) := by
  have hA : ∀ (decode : GoStr → Except GoStr UnstructuredObj) (manifest : GoStr),
      ParseK8sObjectsFromYAMLManifest decode manifest =
        (chunkObjects decode (splitYamls (goScanLines manifest) []),
         chunkReports decode (splitYamls (goScanLines manifest) [])) := by
    intro decode manifest
    unfold ParseK8sObjectsFromYAMLManifest
    have := parse_manifest_foldl decode (splitYamls (goScanLines manifest) []) ([], [])
    simpa using this
  refine ⟨hA, ?_⟩
  intro decode u hdec hk hn
  have hch : splitYamls (goScanLines c6Text) [] =
      [("kind: Deployment\nmetadata:\n  name: x\n").data, ("# disabled\n").data] := rfl
  have hst : removeNonYAMLLines (("kind: Deployment\nmetadata:\n  name: x\n").data) =
      c6Chunk := rfl
  have hbl : removeNonYAMLLines (("# disabled\n").data) = [] := rfl
  have hne : c6Chunk ≠ [] := by decide
  refine ⟨?_, ?_, ?_⟩
  · rw [hA decode c6Text, hch]
    simp only [chunkObjects, chunkReports, List.filterMap_cons, List.filterMap_nil,
      hst, hbl, if_neg hne, if_pos rfl]
    rw [ParseYAMLToK8sObject, hdec]
    rfl
  · have hkind : (NewK8sObject u none (some c6Chunk)).Kind = ("Deployment").data := hk
    have hname : (NewK8sObject u none (some c6Chunk)).Name = ("x").data := hn
    rw [K8sObject.Valid, hkind, hname]
    decide
  · have hkind : (NewK8sObject u none (some c6Chunk)).Kind = ("Deployment").data := hk
    have hname : (NewK8sObject u none (some c6Chunk)).Name = ("x").data := hn
    rw [K8sObject.HashNameKind, hkind, hname]
    rfl

/-- Witness for the amended C6: the concrete decoder parses the scenario
text to one valid object with identity `Deployment:x` and no report. -/
theorem c6_parse_manifest_amended_witness :
    (ParseK8sObjectsFromYAMLManifest c6Decode c6Text).2 = []
    ∧ (ParseK8sObjectsFromYAMLManifest c6Decode c6Text).1.map
        (fun o => o.HashNameKind) = [("Deployment:x").data] := by
  have h := c6_parse_manifest_amended.2 c6Decode ⟨[], ("Deployment").data, ("x").data, [], [], 0⟩
    (by rw [c6Decode, if_pos rfl]) rfl rfl
  rw [h.1]
  exact ⟨rfl, by rw [List.map_singleton, h.2.2]⟩

/-! Helper lemmas for the select/ignore filter. -/

theorem mapLookup_mapDelete {β : Type} (k0 k : GoStr) :
    ∀ m : GoMap β, mapLookup (mapDelete m k0) k = if k = k0 then none else mapLookup m k := by
  intro m
  induction m with
  | nil =>
    by_cases h : k = k0
    · rw [if_pos h]; rfl
    · rw [if_neg h]; rfl
  | cons kv rest ih =>
    simp only [mapDelete]
    by_cases h0 : kv.1 = k0
    · rw [if_pos h0, ih]
      by_cases h : k = k0
      · simp [h]
      · have h1 : ¬ kv.1 = k := by rw [h0]; intro hc; exact h hc.symm
        simp [mapLookup, h, h1]
    · rw [if_neg h0]
      by_cases h1 : kv.1 = k
      · have hk0 : ¬ k = k0 := fun hc => h0 (h1.trans hc)
        simp [mapLookup, h1, hk0]
      · simp [mapLookup, h1, ih]

theorem mapKeys_mem_iff {β : Type} (k : GoStr) :
    ∀ m : GoMap β, k ∈ mapKeys m ↔ (mapLookup m k).isSome := by
  intro m
  induction m with
  | nil =>
    constructor
    · intro h; exact absurd h (List.not_mem_nil k)
    · intro h; exact absurd h (fun hc => Bool.false_ne_true hc)
  | cons kv rest ih =>
    have hcons : mapKeys (kv :: rest) = kv.1 :: mapKeys rest := rfl
    by_cases h0 : kv.1 = k
    · have hl : mapLookup (kv :: rest) k = some kv.2 := by
        show (if kv.1 = k then some kv.2 else mapLookup rest k) = some kv.2
        rw [if_pos h0]
      rw [hl, hcons]
      constructor
      · intro _; rfl
      · intro _; rw [h0]; exact List.mem_cons_self k (mapKeys rest)
    · have hl : mapLookup (kv :: rest) k = mapLookup rest k := by
        show (if kv.1 = k then some kv.2 else mapLookup rest k) = mapLookup rest k
        rw [if_neg h0]
      rw [hl, hcons]
      constructor
      · intro h
        rcases List.mem_cons.mp h with h2 | h2
        · exact absurd h2.symm h0
        · exact ih.mp h2
      · intro h
        exact List.mem_cons_of_mem kv.1 (ih.mpr h)

theorem selectLoop_ok_mem (compile : GoStr → Option (GoStr → Bool)) (ak : GoStr)
    (av : K8sObject) :
    ∀ (sm : List GoStr) (aosm r : GoMap K8sObject),
      selectLoop compile ak av sm aosm = .ok r →
      ∀ k, (mapLookup r k).isSome ↔
        ((mapLookup aosm k).isSome ∨ (k = ak ∧ matchesAny compile sm ak)) := by
  intro sm
  induction sm with
  | nil =>
    intro aosm r hok k
    cases hok
    simp [matchesAny]
  | cons s rest ih =>
    intro aosm r hok k
    simp only [selectLoop] at hok
    cases hb : buildResourceRegexp compile (goTrimSpace s) with
    | none => simp only [hb] at hok; cases hok
    | some re =>
      simp only [hb] at hok
      have hm : matchesAny compile (s :: rest) ak ↔
          ((∃ re2, buildResourceRegexp compile (goTrimSpace s) = some re2 ∧ re2 ak = true)
            ∨ matchesAny compile rest ak) := by
        simp [matchesAny]
      split at hok
      next hre =>
        have ihh := ih (mapSet aosm ak av) r hok k
        have hset : (mapLookup (mapSet aosm ak av) k).isSome ↔
            (k = ak ∨ (mapLookup aosm k).isSome) := by
          rw [mapLookup_mapSet]
          by_cases hk : ak = k
          · simp [hk]
          · have hk2 : ¬ k = ak := fun hc => hk hc.symm
            simp [hk, hk2]
        have hmT : matchesAny compile (s :: rest) ak := hm.mpr (Or.inl ⟨re, hb, hre⟩)
        rw [ihh, hset]
        tauto
      next hre =>
        have ihh := ih aosm r hok k
        have hmE : matchesAny compile (s :: rest) ak ↔ matchesAny compile rest ak := by
          rw [hm]
          constructor
          · rintro (⟨re2, hb2, hre2⟩ | hr)
            · rw [hb] at hb2
              injection hb2 with h2
              rw [← h2] at hre2
              exact absurd hre2 hre
            · exact hr
          · exact Or.inr
        rw [ihh, hmE]

theorem ignoreLoop_ok_mem (compile : GoStr → Option (GoStr → Bool)) (ak : GoStr) :
    ∀ (im : List GoStr) (aosm r : GoMap K8sObject),
      ignoreLoop compile ak im aosm = .ok r →
      ∀ k, (mapLookup r k).isSome ↔
        ((mapLookup aosm k).isSome ∧ ¬ (k = ak ∧ matchesAny compile im ak)) := by
  intro im
  induction im with
  | nil =>
    intro aosm r hok k
    cases hok
    simp [matchesAny]
  | cons s rest ih =>
    intro aosm r hok k
    simp only [ignoreLoop] at hok
    cases hb : buildResourceRegexp compile (goTrimSpace s) with
    | none => simp only [hb] at hok; cases hok
    | some re =>
      simp only [hb] at hok
      have hm : matchesAny compile (s :: rest) ak ↔
          ((∃ re2, buildResourceRegexp compile (goTrimSpace s) = some re2 ∧ re2 ak = true)
            ∨ matchesAny compile rest ak) := by
        simp [matchesAny]
      split at hok
      next hre =>
        have ihh := ih (mapDelete aosm ak) r hok k
        have hdel : (mapLookup (mapDelete aosm ak) k).isSome ↔
            ((mapLookup aosm k).isSome ∧ ¬ k = ak) := by
          rw [mapLookup_mapDelete]
          by_cases hk : k = ak <;> simp [hk]
        have hmT : matchesAny compile (s :: rest) ak := hm.mpr (Or.inl ⟨re, hb, hre⟩)
        rw [ihh, hdel]
        tauto
      next hre =>
        have ihh := ih aosm r hok k
        have hmE : matchesAny compile (s :: rest) ak ↔ matchesAny compile rest ak := by
          rw [hm]
          constructor
          · rintro (⟨re2, hb2, hre2⟩ | hr)
            · rw [hb] at hb2
              injection hb2 with h2
              rw [← h2] at hre2
              exact absurd hre2 hre
            · exact hr
          · exact Or.inr
        rw [ihh, hmE]

set_option maxHeartbeats 1000000 in
theorem filterResourceGo_mem (compile : GoStr → Option (GoStr → Bool))
    (sm im : List GoStr) :
    ∀ (rest acc r : GoMap K8sObject),
      filterResourceGo compile sm im rest acc = .ok r →
      (mapKeys rest).Nodup →
      ∀ k, (mapLookup r k).isSome ↔
        (if k ∈ mapKeys rest
         then ((mapLookup acc k).isSome ∨ matchesAny compile sm k) ∧
           ¬ matchesAny compile im k
         else (mapLookup acc k).isSome) := by
  intro rest
  induction rest with
  | nil =>
    intro acc r hok _ k
    cases hok
    simp [mapKeys]
  | cons kv rest2 ih =>
    intro acc r hok hnd k
    simp only [filterResourceGo] at hok
    cases hsel : selectLoop compile kv.1 kv.2 sm acc with
    | error e => simp only [hsel] at hok; cases hok
    | ok a1 =>
      simp only [hsel] at hok
      cases hign : ignoreLoop compile kv.1 im a1 with
      | error e => simp only [hign] at hok; cases hok
      | ok a2 =>
        simp only [hign] at hok
        have hndc : (kv.1 :: mapKeys rest2).Nodup := hnd
        have hnd1 : kv.1 ∉ mapKeys rest2 := (List.nodup_cons.mp hndc).1
        have hnd2 : (mapKeys rest2).Nodup := (List.nodup_cons.mp hndc).2
        have ihh := ih a2 r hok hnd2 k
        have hselm := selectLoop_ok_mem compile kv.1 kv.2 sm acc a1 hsel k
        have hignm := ignoreLoop_ok_mem compile kv.1 im a1 a2 hign k
        have hconsmem : k ∈ mapKeys (kv :: rest2) ↔ (k = kv.1 ∨ k ∈ mapKeys rest2) := by
          rw [show mapKeys (kv :: rest2) = kv.1 :: mapKeys rest2 from rfl]
          exact List.mem_cons
        by_cases hk : k = kv.1
        · subst hk
          rw [ihh, if_neg hnd1, if_pos (hconsmem.mpr (Or.inl rfl)), hignm, hselm]
          tauto
        · have ha2 : (mapLookup a2 k).isSome ↔ (mapLookup acc k).isSome := by
            rw [hignm, hselm]
            tauto
          rw [ihh]
          by_cases hk2 : k ∈ mapKeys rest2
          · rw [if_pos hk2, if_pos (hconsmem.mpr (Or.inr hk2)), ha2]
          · rw [if_neg hk2, if_neg (fun hc => by
              rcases hconsmem.mp hc with hc2 | hc2
              · exact hk hc2
              · exact hk2 hc2), ha2]

/-- Counterexample for C4 as stated: with an empty select-pattern set and
an empty ignore-pattern set the filter returns the empty index, not the
original index — the key present in the input is absent from the
output. -/
theorem c4_empty_select_counterexample :
    filterResourceWithSelectAndIgnore globCompile
        [(("Deployment:ns:a").data, c4Obj)] [] [] = .ok []
    ∧ (mapLookup [(("Deployment:ns:a").data, c4Obj)] (("Deployment:ns:a").data)).isSome = true
    ∧ (mapLookup ([] : GoMap K8sObject) (("Deployment:ns:a").data)).isSome = false :=
  ⟨rfl, rfl, rfl⟩

/-- C4 (amended): a key is retained by `filterResourceWithSelectAndIgnore`
exactly when it is present in the input index, matches at least one select
pattern (OR semantics), and matches no ignore pattern — select is applied
before ignore; in particular, when the select-pattern set is empty nothing
is retained (the empty select does not pass the original index through). -/
theorem c4_select_ignore_amended (compile : GoStr → Option (GoStr → Bool))
    (aom : GoMap K8sObject) (sm im : List GoStr) (aosm : GoMap K8sObject)
    (hok : filterResourceWithSelectAndIgnore compile aom sm im = .ok aosm)
    (hnd : (mapKeys aom).Nodup) :
    (∀ k, (mapLookup aosm k).isSome ↔
      ((mapLookup aom k).isSome ∧ matchesAny compile sm k ∧ ¬ matchesAny compile im k))
    ∧ (sm = [] → ∀ k, (mapLookup aosm k).isSome = false) := by
  have hmain : ∀ k, (mapLookup aosm k).isSome ↔
      ((mapLookup aom k).isSome ∧ matchesAny compile sm k ∧ ¬ matchesAny compile im k) := by
    intro k
    have h := filterResourceGo_mem compile sm im aom [] aosm hok hnd k
    rw [h]
    by_cases hk : k ∈ mapKeys aom
    · rw [if_pos hk]
      rw [mapKeys_mem_iff] at hk
      have hnil : (mapLookup ([] : GoMap K8sObject) k).isSome = false := rfl
      rw [hnil]
      simp only [Bool.false_eq_true, false_or]
      constructor
      · rintro ⟨hsel, hign⟩; exact ⟨hk, hsel, hign⟩
      · rintro ⟨_, hsel, hign⟩; exact ⟨hsel, hign⟩
    · rw [if_neg hk]
      rw [mapKeys_mem_iff] at hk
      have hnil : (mapLookup ([] : GoMap K8sObject) k).isSome = false := rfl
      rw [hnil]
      constructor
      · intro hc; exact absurd hc (by simp)
      · rintro ⟨hc, _, _⟩; exact absurd hc hk
  refine ⟨hmain, ?_⟩
  rintro rfl k
  cases hx : (mapLookup aosm k).isSome with
  | false => rfl
  | true =>
    have h2 := (hmain k).mp hx
    rcases h2 with ⟨_, ⟨p, hp, _⟩, _⟩
    exact absurd hp (List.not_mem_nil p)

/-- Witness for the amended C4: a select pattern `Deployment:*:*` retains
the matching key, with no ignore pattern. -/
theorem c4_select_ignore_amended_witness :
    (mapLookup [(("Deployment:ns:a").data, c4Obj)] (("Deployment:ns:a").data)).isSome = true := by
  have h := c4_select_ignore_amended globCompile
    [(("Deployment:ns:a").data, c4Obj)] [("Deployment:*:*").data] []
    [(("Deployment:ns:a").data, c4Obj)] rfl (by simp [mapKeys])
  exact ((h.1 (("Deployment:ns:a").data)).mpr
    ⟨rfl, ⟨("Deployment:*:*").data, List.mem_singleton.mpr rfl,
      ⟨fun s => globMatchString (wildcardToRe (goTrimSpace (("Deployment:*:*").data))) s,
        rfl, by decide⟩⟩,
      fun hc => by rcases hc with ⟨p, hp, _⟩; exact absurd hp (List.not_mem_nil p)⟩)

/-! Helper lemma for the rename loop. -/

theorem renameLoop_ok_char (compile : GoStr → Option (GoStr → Bool)) (name : GoStr)
    (obj : K8sObject) :
    ∀ (rules : List (GoStr × GoStr)) (oom : GoMap K8sObject) (ir : Bool)
      (res : GoMap K8sObject × Bool),
      renameLoop compile name obj rules oom ir = .ok res →
      (res.2 = (ir || !(ruleRewrites compile name rules).isEmpty))
      ∧ (∀ tk, (mapLookup res.1 tk).isSome ↔
          ((mapLookup oom tk).isSome ∨ tk ∈ ruleRewrites compile name rules)) := by
  intro rules
  induction rules with
  | nil =>
    intro oom ir res hok
    cases hok
    constructor
    · simp [ruleRewrites]
    · intro tk
      constructor
      · exact Or.inl
      · rintro (h | h)
        · exact h
        · exact absurd h (List.not_mem_nil tk)
  | cons rule rest ih =>
    intro oom ir res hok
    simp only [renameLoop] at hok
    cases hb : buildResourceRegexp compile (goTrimSpace rule.1) with
    | none => simp only [hb] at hok; cases hok
    | some re =>
      simp only [hb] at hok
      by_cases hre : re name = true
      · rw [if_pos hre] at hok
        have hrw2 : ruleRewrites compile name (rule :: rest) =
            joinChar ':' (List.zipWith (fun t f => if t = [] ∨ t = ['*'] then f else t)
              (splitChar ':' rule.2) (splitChar ':' name)) ::
              ruleRewrites compile name rest := by
          simp only [ruleRewrites, List.filterMap_cons, hb, hre, eq_self_iff_true, if_true]
        by_cases hlen1 : (splitChar ':' name).length ≠ 3
        · rw [if_pos hlen1] at hok; cases hok
        · rw [if_neg hlen1] at hok
          by_cases hlen2 : (splitChar ':' rule.2).length ≠ 3
          · rw [if_pos hlen2] at hok; cases hok
          · rw [if_neg hlen2] at hok
            have ihh := ih _ true res hok
            rw [hrw2]
            constructor
            · rw [ihh.1]
              simp
            · intro tk
              rw [ihh.2 tk, mapLookup_mapSet]
              by_cases htk : joinChar ':' (List.zipWith
                  (fun t f => if t = [] ∨ t = ['*'] then f else t)
                  (splitChar ':' rule.2) (splitChar ':' name)) = tk
              · rw [if_pos htk]
                constructor
                · intro _
                  exact Or.inr (List.mem_cons.mpr (Or.inl htk.symm))
                · intro _
                  exact Or.inl rfl
              · rw [if_neg htk]
                constructor
                · rintro (h | h)
                  · exact Or.inl h
                  · exact Or.inr (List.mem_cons_of_mem _ h)
                · rintro (h | h)
                  · exact Or.inl h
                  · rcases List.mem_cons.mp h with h2 | h2
                    · exact absurd h2.symm htk
                    · exact Or.inr h2
      · rw [Bool.not_eq_true] at hre
        rw [hre] at hok
        rw [if_neg (by simp)] at hok
        have hrw2 : ruleRewrites compile name (rule :: rest) =
            ruleRewrites compile name rest := by
          simp only [ruleRewrites, List.filterMap_cons, hb, hre, Bool.false_eq_true, if_false]
        have ihh := ih oom ir res hok
        rw [hrw2]
        exact ⟨ihh.1, fun tk => ihh.2 tk⟩

/-- Counterexample for C3 as stated: with two rules both matching the key,
the rename loop does not stop at the first match — both rules rewrite, the
single input key contributes two output keys, and in particular the second
rule's rewrite is present in the output. -/
theorem c3_first_match_only_counterexample :
    renameResource globCompile [(c3Key, c4Obj)] c3Rules =
      .ok [(("Deployment:ns:new1").data, c4Obj), (("Deployment:ns:new2").data, c4Obj)]
    ∧ (mapLookup [(("Deployment:ns:new1").data, c4Obj), (("Deployment:ns:new2").data, c4Obj)]
        (("Deployment:ns:new2").data)).isSome = true
    ∧ (mapKeys [(("Deployment:ns:new1").data, c4Obj),
        (("Deployment:ns:new2").data, c4Obj)]).length = 2 :=
  ⟨rfl, rfl, rfl⟩

/-- C3 (amended): for every identity-index key and every rule sequence,
the rules are tested in order against the key and every matching rule
rewrites it (substituting each to-component, inheriting the original
component wherever the to-component is empty or `*`), so the key
contributes one output key per matching rule; a key matching no rule
passes through unchanged. -/
theorem c3_rename_all_matches_amended (compile : GoStr → Option (GoStr → Bool))
    (name : GoStr) (obj : K8sObject) (rnm : List (GoStr × GoStr))
    (oom : GoMap K8sObject)
    (hok : renameResource compile [(name, obj)] rnm = .ok oom) :
    ∀ tk, (mapLookup oom tk).isSome ↔
      (if ruleRewrites compile name rnm = [] then tk = name
       else tk ∈ ruleRewrites compile name rnm) := by
  intro tk
  simp only [renameResource, renameResourceGo] at hok
  cases hloop : renameLoop compile name obj rnm [] false with
  | error e => simp only [hloop] at hok; cases hok
  | ok res =>
    simp only [hloop] at hok
    have hc := renameLoop_ok_char compile name obj rnm [] false res hloop
    have hir : res.2 = !(ruleRewrites compile name rnm).isEmpty := by
      rw [hc.1]; simp
    by_cases hrw : ruleRewrites compile name rnm = []
    · rw [if_pos hrw]
      have hir2 : res.2 = false := by rw [hir, hrw]; rfl
      rw [hir2] at hok
      rw [if_neg (by simp)] at hok
      cases hok
      rw [mapLookup_mapSet]
      by_cases htk : name = tk
      · rw [if_pos htk]
        simp only [Option.isSome_some]
        exact ⟨fun _ => htk.symm, fun _ => trivial⟩
      · rw [if_neg htk]
        rw [hc.2 tk]
        constructor
        · rintro (h | h)
          · exact absurd h (fun hc2 => Bool.false_ne_true hc2)
          · rw [hrw] at h; exact absurd h (List.not_mem_nil tk)
        · intro h; exact absurd h.symm htk
    · rw [if_neg hrw]
      have hir2 : res.2 = true := by
        rw [hir]
        cases hempty : ruleRewrites compile name rnm with
        | nil => exact absurd hempty hrw
        | cons a l => rfl
      rw [hir2, if_pos rfl] at hok
      cases hok
      rw [hc.2 tk]
      constructor
      · rintro (h | h)
        · exact absurd h (fun hc2 => Bool.false_ne_true hc2)
        · exact h
      · exact Or.inr

/-- Witness for the amended C3: a single matching rule rewrites
`Deployment:ns:old` to `Deployment:ns:new`, and a key matching no rule
passes through unchanged. -/
theorem c3_rename_all_matches_amended_witness :
    ((mapLookup [(("Deployment:ns:new").data, c4Obj)] (("Deployment:ns:new").data)).isSome
      ↔ (if ruleRewrites globCompile c3Key
            [(("Deployment:*:old").data, ("Deployment:*:new").data)] = []
          then ("Deployment:ns:new").data = c3Key
          else ("Deployment:ns:new").data ∈ ruleRewrites globCompile c3Key
            [(("Deployment:*:old").data, ("Deployment:*:new").data)]))
    ∧ ((mapLookup [(("Service:ns:a").data, c4Obj)] (("Service:ns:a").data)).isSome
      ↔ (if ruleRewrites globCompile (("Service:ns:a").data)
            [(("Deployment:*:old").data, ("Deployment:*:new").data)] = []
          then ("Service:ns:a").data = ("Service:ns:a").data
          else ("Service:ns:a").data ∈ ruleRewrites globCompile (("Service:ns:a").data)
            [(("Deployment:*:old").data, ("Deployment:*:new").data)])) :=
  ⟨c3_rename_all_matches_amended globCompile c3Key c4Obj
      [(("Deployment:*:old").data, ("Deployment:*:new").data)]
      [(("Deployment:ns:new").data, c4Obj)] rfl (("Deployment:ns:new").data),
   c3_rename_all_matches_amended globCompile (("Service:ns:a").data) c4Obj
      [(("Deployment:*:old").data, ("Deployment:*:new").data)]
      [(("Service:ns:a").data, c4Obj)] rfl (("Service:ns:a").data)⟩

end Operator
